import Mathlib

/-!
Verification of the baby-browser rendering core: a shallow embedding of the
markup parser (baby_browser/html.py), the stylesheet parser (baby_browser/css.py),
the style cascade and the block/inline layout engine (baby_browser/browser.py),
together with theorems settling the specification claims.

Strings are modelled as lists of characters; Python floats are modelled as
rationals (exact for all arithmetic the theorems touch); raised exceptions are
modelled with Option (none = the Python call raised).
-/

namespace BabyBrowser

/-- Strings of the embedded program: Python str modelled as a list of characters. -/
abbrev Str := List Char

/-- Conversion from Lean string literals to the embedded string type. -/
def s2l (s : String) : Str := s.data

/-- ASCII lowercasing of one character: models Python str.lower for the ASCII
range (all inputs the theorems touch are ASCII). -/
def asciiLower (c : Char) : Char :=
  if ('A' ≤ c ∧ c ≤ 'Z') then Char.ofNat (c.toNat + 32) else c

/-- Python str.isspace on one character, for the ASCII range. -/
def isPySpace (c : Char) : Bool :=
  c = ' ' ∨ c = '\t' ∨ c = '\n' ∨ c = '\x0d' ∨ c = '\x0b' ∨ c = '\x0c'

/-- Python str.isspace: true iff the string is nonempty and all characters are
whitespace. -/
def pyIsSpace (s : Str) : Bool := !s.isEmpty && s.all isPySpace

/-- One step of Python str.split with no arguments: drop leading whitespace,
take the first word. Fuel-driven so that it reduces in the kernel. -/
def pySplitGo : Nat → Str → List Str
  | 0, _ => []
  | _ + 1, [] => []
  | fuel + 1, c :: cs =>
    if isPySpace c then pySplitGo fuel cs
    else
      let w := List.takeWhile (fun x => !isPySpace x) (c :: cs)
      let r := List.dropWhile (fun x => !isPySpace x) (c :: cs)
      w :: pySplitGo fuel r

/-- Python str.split with no arguments: split on runs of whitespace, dropping
empty fields. -/
def pySplit (s : Str) : List Str := pySplitGo (s.length + 1) s

/-- Python str.split(sep) for a single-character separator (used for
"word.split(\x22.\x22)" in the CSS selector parser): keeps empty fields. -/
def pySplitOnGo : Nat → Char → Str → Str → List Str
  | 0, _, acc, _ => [acc]
  | _ + 1, _, acc, [] => [acc]
  | fuel + 1, sep, acc, c :: cs =>
    if c = sep then acc :: pySplitOnGo fuel sep [] cs
    else pySplitOnGo fuel sep (acc ++ [c]) cs

/-- Python str.split(sep) for a one-character separator. -/
def pySplitOn (sep : Char) (s : Str) : List Str := pySplitOnGo (s.length + 1) sep [] s

/-! ## Document tree (baby_browser/html.py)

The Python Node dataclass carries a mutable children list on both variants
(Text and Element) and a parent back-reference.  The embedding keeps the
children on both variants and drops the parent pointer: every place the source
uses it (attaching a child, selector matching) is modelled by explicit
state/ancestor passing. -/

/-- The node payload: Text owns a string, Element owns a tag and attributes. -/
inductive NKind where
  | text (s : Str)
  | elem (tag : Str) (attrs : List (Str × Option Str))
deriving DecidableEq

/-- A document node: payload plus ordered children (html.py Node). -/
inductive Node where
  | mk (kind : NKind) (children : List Node)

/-- The payload of a node. -/
def Node.kind : Node → NKind
  | .mk k _ => k

/-- The children of a node. -/
def Node.children : Node → List Node
  | .mk _ cs => cs

/-- The tag of an element node, none for text nodes. -/
def Node.tag? : Node → Option Str
  | .mk (.text _) _ => none
  | .mk (.elem t _) _ => some t

/-- SELF_CLOSING_TAGS (html.py). -/
def SELF_CLOSING_TAGS : List Str :=
  [r"area", r"base", r"br", r"col", r"embed", r"hr", r"img", r"input",
   r"link", r"meta", r"param", r"source", r"track", r"wbr"].map s2l

/-- HEAD_TAGS (html.py). -/
def HEAD_TAGS : List Str :=
  [r"base", r"basefont", r"bgsound", r"noscript", r"link", r"meta",
   r"title", r"style", r"script"].map s2l

/-- BLOCK_ELEMENTS (html.py). -/
def BLOCK_ELEMENTS : List Str :=
  [r"html", r"body", r"article", r"section", r"nav", r"aside", r"h1", r"h2",
   r"h3", r"h4", r"h5", r"h6", r"hgroup", r"header", r"footer", r"address",
   r"p", r"hr", r"pre", r"blockquote", r"ol", r"ul", r"menu", r"li", r"dl",
   r"dt", r"dd", r"figure", r"figcaption", r"main", r"div", r"table",
   r"form", r"fieldset", r"legend", r"details", r"summary"].map s2l

/-- Python _unquote_string (html.py): strip one layer of matching quotes. -/
def unquoteString (v : Str) : Str :=
  match v with
  | [] => []
  | c :: cs =>
    if (c = '\x22' ∨ c = '\x27') ∧ cs.getLast? = some c ∧ cs ≠ [] then
      cs.dropLast
    else c :: cs

/-- HTMLParser._parse_tag_attributes: split the raw attribute text on
whitespace; key=value pairs are split on the first equals sign, keys lowered,
values unquoted; bare keys map to None. -/
def parseTagAttributes (raw : Str) : List (Str × Option Str) :=
  (pySplit raw).map fun pair =>
    if pair.contains '=' then
      let key := pair.takeWhile (fun c => c ≠ '=')
      let value := (pair.dropWhile (fun c => c ≠ '=')).drop 1
      (key.map asciiLower, some (unquoteString value))
    else (pair.map asciiLower, none)

/-- An unfinished element on the parser stack: tag, attributes and the
children attached so far (an html.py Element still open). -/
structure Frame where
  tag : Str
  attrs : List (Str × Option Str)
  children : List Node
deriving Inhabited

/-- The tree-building state of HTMLParser: the unfinished-element stack
(top first; Python keeps the top at the end of the list) and the root. -/
structure PState where
  stack : List Frame
  root : Option Node
deriving Inhabited

/-- Append a child to a (finished) node, modelling parent.children.append
when the parent is the already-set root. -/
def Node.appendChild (n : Node) (c : Node) : Node :=
  match n with
  | .mk k cs => .mk k (cs ++ [c])

/-- Attach a node under the last seen node (_get_last_seen_node): the top
unfinished frame if any, else the current root; when there is no parent at
all the fallback action differs per call site, so it is a parameter. -/
def attachNode (n : Node) (noParent : PState → PState) (st : PState) : PState :=
  match st.stack with
  | f :: fs => { st with stack := { f with children := f.children ++ [n] } :: fs }
  | [] =>
    match st.root with
    | some r => { st with root := some (r.appendChild n) }
    | none => noParent st

/-- The closing-tag action of HTMLParser._add_tag: pop the top unfinished
element, build its node, and attach it to the new last-seen node; with an
empty stack after the pop and no root, the popped node becomes the root. -/
def closeTop (st : PState) : PState :=
  match st.stack with
  | [] => st
  | f :: fs =>
    let node : Node := .mk (.elem f.tag f.attrs) f.children
    attachNode node (fun s => { s with root := some node }) { st with stack := fs }

/-- HTMLParser._add_tag without the implicit-repair call: closing tags pop and
attach (the empty-stack IndexError branch ignores the tag), self-closing tags
attach immediately (dropped with a log when there is no parent at all), other
tags push a new unfinished element. -/
def addTagCore (tagName : Str) (attrs : Str) (st : PState) : PState :=
  if tagName.head? = some '/' then
    -- it is a close tag
    match st.stack with
    | [] => st  -- "Found a closing tag without an opening" - ignored
    | _ :: _ => closeTop st
  else if SELF_CLOSING_TAGS.contains tagName then
    let node : Node := .mk (.elem tagName (if attrs.isEmpty then [] else parseTagAttributes attrs)) []
    attachNode node (fun s => s) st  -- "A self closing tag cannot be the HTML root"
  else
    { st with stack := ⟨tagName, if attrs.isEmpty then [] else parseTagAttributes attrs, []⟩ :: st.stack }

/-- The bottom (first-opened) frame of the stack, Python _unfinished_nodes[0]. -/
def stackBottom (st : PState) : Option Frame := st.stack.getLast?

/-- One test of HTMLParser._handle_implicit_tags applied as a fixed-point loop:
the loop body fires at most twice before the break, so fuel 4 is exact.
tag? is none for a text event.  The nested _add_tag calls for the implicit
html/head/body//head tags run their own repair first, which is the identity
in the configurations they are issued from, so addTagCore is used directly. -/
def handleImplicitTagsGo : Nat → Option Str → PState → PState
  | 0, _, st => st
  | fuel + 1, tag?, st =>
    if st.stack.isEmpty ∧ tag? ≠ some (s2l (r"html")) then
      handleImplicitTagsGo fuel tag? (addTagCore (s2l (r"html")) [] st)
    else if st.stack.length = 1 ∧
        (stackBottom st).map Frame.tag = some (s2l (r"html")) ∧
        tag? ∉ ([some (s2l (r"head")), some (s2l (r"body")), some (s2l (r"/html"))] : List (Option Str)) then
      if tag? ∈ HEAD_TAGS.map some then
        handleImplicitTagsGo fuel tag? (addTagCore (s2l (r"head")) [] st)
      else
        handleImplicitTagsGo fuel tag? (addTagCore (s2l (r"body")) [] st)
    else if st.stack.length = 2 ∧
        (stackBottom st).map Frame.tag = some (s2l (r"html")) ∧
        (st.stack.head?).map Frame.tag = some (s2l (r"head")) ∧
        tag? ∉ (some (s2l (r"/head")) :: HEAD_TAGS.map some) then
      handleImplicitTagsGo fuel tag? (addTagCore (s2l (r"/head")) [] st)
    else st

/-- HTMLParser._handle_implicit_tags. -/
def handleImplicitTags (tag? : Option Str) (st : PState) : PState :=
  handleImplicitTagsGo 4 tag? st

/-- HTMLParser._add_tag: skip bang tags, run the implicit repair, then the
core action. -/
def addTag (tagName : Str) (attrs : Str) (st : PState) : PState :=
  if tagName.head? = some '!' then st
  else addTagCore tagName attrs (handleImplicitTags (some tagName) st)

/-- HTMLParser._add_text: whitespace-only runs are discarded; otherwise run
the implicit repair and attach a Text node to the last seen node (a text
node becomes the root when there is no parent at all). -/
def addText (text : Str) (st : PState) : PState :=
  if pyIsSpace text then st
  else
    let node : Node := .mk (.text text) []
    attachNode node (fun s => { s with root := some node })
      (handleImplicitTags none st)

/-- HTMLParser._finish: close every remaining unfinished element, innermost
first.  The stack length is exact fuel. -/
def finishGo : Nat → PState → PState
  | 0, st => st
  | fuel + 1, st =>
    match st.stack with
    | [] => st
    | _ :: _ => finishGo fuel (closeTop st)

/-- HTMLParser._finish on the tree-building state. -/
def finish (st : PState) : PState := finishGo st.stack.length st

/-- The character-scanner state of HTMLParser.parse. -/
structure TState where
  text : Str
  inTag : Bool
  inTagName : Bool
  inEntity : Bool
  tagName : Str
  tagAttrs : Str
  entityContent : Str
  ps : PState

/-- The initial scanner state. -/
def initTState : TState :=
  ⟨[], false, false, false, [], [], [], ⟨[], none⟩⟩

/-- Python html.unescape applied to one named character reference
(_convert_html_entity): the entities the default table resolves that this
development touches, with unknown names left intact as Python does. -/
def convertHtmlEntity (name : Str) : Str :=
  if name = s2l (r"amp") then s2l (r"&")
  else if name = s2l (r"lt") then s2l (r"<")
  else if name = s2l (r"gt") then s2l (r">")
  else if name = s2l (r"quot") then [ '\x22' ]
  else if name = s2l (r"apos") then [ '\x27' ]
  else if name = s2l (r"nbsp") then [ '\xa0' ]
  else '&' :: (name ++ [';'])

/-- The tag-open action of the scanner (the branch taken on an opening angle
bracket): flush pending text and reset the tag buffers. -/
def scanOpenTag (ts : TState) : TState :=
  { ts with
    inTag := true, inTagName := true, tagName := [], tagAttrs := [],
    ps := if ts.text.isEmpty then ts.ps else addText ts.text ts.ps,
    text := [] }

/-- One character of HTMLParser.parse after the tag-open test has failed:
the elif chain over closing bracket, ampersand, entity accumulation, tag-name
and attribute capture, and plain text. -/
def scanOther (c : Char) (ts : TState) : TState :=
  if c = '>' then
    { ts with inTag := false, inTagName := false,
              ps := addTag ts.tagName ts.tagAttrs ts.ps, text := [] }
  else if ¬ts.inTag ∧ c = '&' ∧ ts.tagName ≠ s2l (r"script") then
    { ts with inEntity := true, entityContent := [] }
  else if ts.inEntity then
    if c = ';' then
      { ts with inEntity := false, text := ts.text ++ convertHtmlEntity ts.entityContent }
    else { ts with entityContent := ts.entityContent ++ [asciiLower c] }
  else if ts.inTag then
    if ts.inTagName then
      if c = ' ' then { ts with inTagName := false }
      else { ts with tagName := ts.tagName ++ [asciiLower c] }
    else { ts with tagAttrs := ts.tagAttrs ++ [c] }
  else { ts with text := ts.text ++ [c] }

/-- The character loop of HTMLParser.parse.  The tag-open condition consults
the character after the current one; when the scanner sits on a literal
less-than inside a script body at the very end of the input, the Python
source indexes one past the end and raises, modelled as none. -/
def scanChars : Str → TState → Option TState
  | [], ts => some ts
  | c :: rest, ts =>
    if c = '<' then
      if ts.tagName ≠ s2l (r"script") then scanChars rest (scanOpenTag ts)
      else
        match rest with
        | [] => none  -- IndexError: self.html[i + 1]
        | c2 :: _ =>
          if c2 = '/' then scanChars rest (scanOpenTag ts)
          else scanChars rest (scanOther c ts)
    else scanChars rest (scanOther c ts)

/-- HTMLParser.parse: scan every character, flush a trailing text run, close
the unfinished elements.  Returns the final tree-building state (none when
the source would raise). -/
def parse (html : Str) : Option PState :=
  (scanChars html initTState).map fun ts =>
    let ps := if ¬ts.inTag ∧ ¬ts.text.isEmpty then addText ts.text ts.ps else ts.ps
    finish ps

/-- The document tree produced by a parse: HTMLParser.root after parse(),
which is what Browser.load_page consumes. -/
def parseRoot (html : Str) : Option (Option Node) :=
  (parse html).map PState.root

/-- Shorthand for building an element node with no attributes. -/
def nElem (t : String) (cs : List Node) : Node := .mk (.elem (s2l t) []) cs

/-- Shorthand for building a text node. -/
def nText (s : String) : Node := .mk (.text (s2l s)) []

/-- Every Text node in the tree holds a string that is not whitespace-only
(Python text.isspace() false). -/
inductive NoWsTexts : Node → Prop where
  | text : ∀ (s : Str) (cs : List Node), pyIsSpace s = false →
      (∀ c ∈ cs, NoWsTexts c) → NoWsTexts (.mk (.text s) cs)
  | elem : ∀ (t : Str) (a : List (Str × Option Str)) (cs : List Node),
      (∀ c ∈ cs, NoWsTexts c) → NoWsTexts (.mk (.elem t a) cs)

/-- All children attached to an unfinished element so far satisfy the
no-whitespace-text invariant. -/
def FrameOk (f : Frame) : Prop := ∀ c ∈ f.children, NoWsTexts c

/-- The parser-state invariant for the whitespace-text claim: every node
hanging off the stack or the root has no whitespace-only Text nodes. -/
def PInv (st : PState) : Prop :=
  (∀ f ∈ st.stack, FrameOk f) ∧ (∀ r, st.root = some r → NoWsTexts r)

theorem NoWsTexts.of_children {k : NKind} {cs : List Node}
    (hk : ∀ s, k = .text s → pyIsSpace s = false)
    (h : ∀ c ∈ cs, NoWsTexts c) : NoWsTexts (.mk k cs) := by
  cases k with
  | text s => exact .text s cs (hk s rfl) h
  | elem t a => exact .elem t a cs h

theorem NoWsTexts.appendChild {r c : Node} (hr : NoWsTexts r) (hc : NoWsTexts c) :
    NoWsTexts (r.appendChild c) := by
  cases hr with
  | text s cs hs h =>
    exact .text s (cs ++ [c]) hs (by
      intro x hx
      rcases List.mem_append.mp hx with hx | hx
      · exact h x hx
      · simp at hx; subst hx; exact hc)
  | elem t a cs h =>
    exact .elem t a (cs ++ [c]) (by
      intro x hx
      rcases List.mem_append.mp hx with hx | hx
      · exact h x hx
      · simp at hx; subst hx; exact hc)

theorem PInv.attach {st : PState} {n : Node} {noParent : PState → PState}
    (hst : PInv st) (hn : NoWsTexts n)
    (hnp : ∀ s : PState, s.stack = [] → s.root = none → PInv s → PInv (noParent s)) :
    PInv (attachNode n noParent st) := by
  obtain ⟨hstack, hroot⟩ := hst
  unfold attachNode
  cases hs : st.stack with
  | cons f fs =>
    refine ⟨?_, ?_⟩
    · intro f' hf'
      rcases List.mem_cons.mp hf' with hf' | hf'
      · subst hf'
        intro c hc
        rcases List.mem_append.mp hc with hc | hc
        · exact hstack f (hs ▸ List.mem_cons_self f fs) c hc
        · simp at hc; subst hc; exact hn
      · exact hstack f' (hs ▸ List.mem_cons_of_mem f hf')
    · exact hroot
  | nil =>
    cases hr : st.root with
    | some r =>
      refine ⟨fun f hf => absurd hf (List.not_mem_nil f), ?_⟩
      intro r' hr'
      simp at hr'
      subst hr'
      exact (hroot r hr).appendChild hn
    | none =>
      exact hnp st hs hr ⟨hstack, hroot⟩

theorem PInv.closeTop {st : PState} (hst : PInv st) : PInv (closeTop st) := by
  obtain ⟨hstack, hroot⟩ := hst
  unfold BabyBrowser.closeTop
  cases hs : st.stack with
  | nil => exact ⟨hstack, hroot⟩
  | cons f fs =>
    have hfok : FrameOk f := hstack f (hs ▸ List.mem_cons_self f fs)
    have hnode : NoWsTexts (.mk (.elem f.tag f.attrs) f.children) :=
      .elem _ _ _ hfok
    refine PInv.attach ?_ hnode ?_
    · exact ⟨fun f' hf' => hstack f' (hs ▸ List.mem_cons_of_mem f hf'), hroot⟩
    · intro s _ _ hsinv
      exact ⟨hsinv.1, by intro r hr; simp at hr; subst hr; exact hnode⟩

theorem PInv.addTagCore {st : PState} (t a : Str) (hst : PInv st) :
    PInv (addTagCore t a st) := by
  unfold BabyBrowser.addTagCore
  split
  · cases hs : st.stack with
    | nil => simpa [hs] using hst
    | cons f fs => simpa [hs] using hst.closeTop
  · split
    · refine hst.attach (.elem _ _ _ (by intro c hc; simp at hc)) ?_
      intro s _ _ hsinv; exact hsinv
    · refine ⟨?_, hst.2⟩
      intro f hf
      rcases List.mem_cons.mp hf with hf | hf
      · subst hf; intro c hc; simp at hc
      · exact hst.1 f hf

theorem PInv.implicitGo {st : PState} (fuel : Nat) (t? : Option Str) (hst : PInv st) :
    PInv (handleImplicitTagsGo fuel t? st) := by
  induction fuel generalizing st with
  | zero => exact hst
  | succ n ih =>
    unfold handleImplicitTagsGo
    split
    · exact ih (hst.addTagCore _ _)
    · split
      · split
        · exact ih (hst.addTagCore _ _)
        · exact ih (hst.addTagCore _ _)
      · split
        · exact ih (hst.addTagCore _ _)
        · exact hst

theorem PInv.addTag {st : PState} (t a : Str) (hst : PInv st) : PInv (addTag t a st) := by
  unfold BabyBrowser.addTag
  split
  · exact hst
  · exact PInv.addTagCore _ _ (hst.implicitGo 4 (some t))

theorem PInv.addText {st : PState} (t : Str) (hst : PInv st) : PInv (addText t st) := by
  unfold BabyBrowser.addText
  split
  · exact hst
  · rename_i hws
    refine PInv.attach (hst.implicitGo 4 none) ?_ ?_
    · exact .text _ _ (by simpa using hws) (by intro c hc; simp at hc)
    · intro s _ _ hsinv
      refine ⟨hsinv.1, ?_⟩
      intro r hr
      simp at hr
      subst hr
      exact .text _ _ (by simpa using hws) (by intro c hc; simp at hc)

theorem PInv.scanOpenTag {ts : TState} (hts : PInv ts.ps) : PInv (scanOpenTag ts).ps := by
  unfold BabyBrowser.scanOpenTag
  simp only
  split
  · exact hts
  · exact hts.addText _

theorem PInv.scanOther {ts : TState} (c : Char) (hts : PInv ts.ps) :
    PInv (scanOther c ts).ps := by
  unfold BabyBrowser.scanOther
  repeat' split
  all_goals simp only
  all_goals first
    | exact hts.addTag _ _
    | exact hts

theorem PInv.scanChars {l : Str} {ts ts' : TState}
    (h : scanChars l ts = some ts') (hts : PInv ts.ps) : PInv ts'.ps := by
  induction l generalizing ts with
  | nil =>
    unfold BabyBrowser.scanChars at h
    simp at h
    subst h
    exact hts
  | cons c rest ih =>
    unfold BabyBrowser.scanChars at h
    split at h
    · split at h
      · exact ih h hts.scanOpenTag
      · split at h
        · simp at h
        · split at h
          · exact ih h hts.scanOpenTag
          · exact ih h (hts.scanOther c)
    · exact ih h (hts.scanOther c)

theorem PInv.finishGo {st : PState} (fuel : Nat) (hst : PInv st) :
    PInv (finishGo fuel st) := by
  induction fuel generalizing st with
  | zero => exact hst
  | succ n ih =>
    unfold BabyBrowser.finishGo
    split
    · exact hst
    · exact ih hst.closeTop

theorem implicitGo_stack_ne_nil (fuel : Nat) (t? : Option Str) (st : PState)
    (h : st.stack ≠ []) : (handleImplicitTagsGo fuel t? st).stack ≠ [] := by
  induction fuel generalizing st with
  | zero => exact h
  | succ n ih =>
    unfold handleImplicitTagsGo
    split
    · rename_i hc
      exact absurd (List.isEmpty_iff.mp hc.1) h
    · split
      · split
        · refine ih _ ?_
          simp [addTagCore, SELF_CLOSING_TAGS, s2l]
        · refine ih _ ?_
          simp [addTagCore, SELF_CLOSING_TAGS, s2l]
      · split
        · rename_i hc
          refine ih _ ?_
          have hlen : st.stack.length = 2 := hc.1
          match hstk : st.stack, hlen with
          | [f, g], _ =>
            simp [hstk, addTagCore, closeTop, attachNode, s2l]
        · exact h

theorem handleImplicitTags_stack_ne_nil (t? : Option Str) (st : PState)
    (h : t? ≠ some (s2l (r"html"))) : (handleImplicitTags t? st).stack ≠ [] := by
  unfold handleImplicitTags handleImplicitTagsGo
  split
  · refine implicitGo_stack_ne_nil _ _ _ ?_
    simp [addTagCore, SELF_CLOSING_TAGS, s2l]
  · rename_i hc
    rw [not_and_or] at hc
    rcases hc with hc | hc
    · have : st.stack ≠ [] := by
        intro hnil
        simp [hnil] at hc
      split
      · split
        · refine implicitGo_stack_ne_nil _ _ _ ?_
          simp [addTagCore, SELF_CLOSING_TAGS, s2l]
        · refine implicitGo_stack_ne_nil _ _ _ ?_
          simp [addTagCore, SELF_CLOSING_TAGS, s2l]
      · split
        · rename_i hc2
          refine implicitGo_stack_ne_nil _ _ _ ?_
          have hlen : st.stack.length = 2 := hc2.1
          match hstk : st.stack, hlen with
          | [f, g], _ =>
            simp [hstk, addTagCore, closeTop, attachNode, s2l]
        · exact this
    · exact absurd (not_not.mp hc) h

/-! ## Stylesheet parser (baby_browser/css.py)

The Python parser walks an index over a fixed source string and raises
ParsingError on failure; the embedding threads the remaining suffix instead
(every read is at or after the index) and carries the failure position in the
error value (the logged message is irrelevant to the semantics).  The two
while loops (parse_css and parse_rule_body) are factored into an explicit
one-iteration step function driven by fuel equal to the input length plus
one; every iteration that continues consumes at least one character (proved
below), so the fuel never runs out. -/

/-- Python isalnum for the ASCII range (all inputs the theorems touch are
ASCII). -/
def isAlnumAscii (c : Char) : Bool := c.isAlpha || c.isDigit

/-- A CSSParser word character: alphanumeric or hash, dash, dot, percent. -/
def isWordChar (c : Char) : Bool := isAlnumAscii c || c ∈ (['#', '-', '.', '%'] : List Char)

/-- CSSParser._whitespace: skip whitespace characters. -/
def cssWhitespace (l : Str) : Str := l.dropWhile isPySpace

/-- CSSParser._word: a maximal nonempty run of word characters; fails (at the
current position) when the first character is not a word character. -/
def cssWord (l : Str) : Except Str (Str × Str) :=
  let w := l.takeWhile isWordChar
  if w.isEmpty then .error l else .ok (w, l.drop w.length)

/-- CSSParser._literal: consume exactly the given character or fail at the
current position. -/
def cssLiteral (c : Char) (l : Str) : Except Str Str :=
  match l with
  | [] => .error []
  | x :: xs => if x = c then .ok xs else .error (x :: xs)

/-- CSSParser._pair: word, whitespace, colon, whitespace, word; the property
name is lowercased. -/
def cssPair (l : Str) : Except Str ((Str × Str) × Str) :=
  match cssWord l with
  | .error e => .error e
  | .ok (prop, l1) =>
    match cssLiteral ':' (cssWhitespace l1) with
    | .error e => .error e
    | .ok l3 =>
      match cssWord (cssWhitespace l3) with
      | .error e => .error e
      | .ok (val, l5) => .ok ((prop.map asciiLower, val), l5)

/-- CSSParser._ignore_until: advance to the first occurrence of one of the
given characters; the result is the suffix starting at that character ([]
when none occurs). -/
def ignoreUntil (cs : List Char) : Str → Str
  | [] => []
  | c :: l => if cs.contains c then c :: l else ignoreUntil cs l

/-- Python dict assignment d[k] = v on an insertion-ordered association
list: overwrite in place or append. -/
def dictSet (m : List (Str × Str)) (k v : Str) : List (Str × Str) :=
  match m with
  | [] => [(k, v)]
  | (k', v') :: rest => if k' = k then (k, v) :: rest else (k', v') :: dictSet rest k v

/-- The outcome of one loop iteration: stop with a result or continue. -/
inductive StepRes (α : Type) where
  | stop (a : α)
  | next (a : α)

/-- The declaration-level error recovery of CSSParser.parse_rule_body: scan
to the next semicolon or closing brace; consume a semicolon and continue,
stop at a closing brace (leaving it unconsumed) or at end of input. -/
def rbRecover (pairs : List (Str × Str)) (e : Str) : StepRes (List (Str × Str) × Str) :=
  match ignoreUntil [';', '}'] e with
  | [] => .stop (pairs, [])
  | c :: e' => if c = ';' then .next (pairs, cssWhitespace e') else .stop (pairs, c :: e')

/-- The tail of a parse_rule_body iteration after a successful _pair: store
the declaration, then whitespace, semicolon, whitespace (recovering on a
missing semicolon). -/
def rbAfterPair (pairs' : List (Str × Str)) (l2 : Str) : StepRes (List (Str × Str) × Str) :=
  match cssLiteral ';' l2 with
  | .error e => rbRecover pairs' e
  | .ok l3 => .next (pairs', cssWhitespace l3)

/-- One iteration of the CSSParser.parse_rule_body loop. -/
def rbStep (pairs : List (Str × Str)) (l : Str) : StepRes (List (Str × Str) × Str) :=
  match l with
  | [] => .stop (pairs, [])
  | c :: _ =>
    if c = '}' then .stop (pairs, l)
    else
      match cssPair l with
      | .error e => rbRecover pairs e
      | .ok ((p, v), l1) => rbAfterPair (dictSet pairs p v) (cssWhitespace l1)

/-- The fuel-driven parse_rule_body loop. -/
def rbGo : Nat → List (Str × Str) → Str → List (Str × Str) × Str
  | 0, pairs, l => (pairs, l)
  | fuel + 1, pairs, l =>
    match rbStep pairs l with
    | .stop r => r
    | .next (pairs', l') => rbGo fuel pairs' l'

/-- CSSParser.parse_rule_body: returns the parsed declaration mapping and the
remaining input. -/
def parseRuleBody (l : Str) : List (Str × Str) × Str := rbGo (l.length + 1) [] l

/-- A simple selector: TagSelector or ClassSelector (css.py). -/
inductive SimpleSel where
  | tag (t : Str)
  | cls (name : Str)
deriving DecidableEq

/-- A CSS selector (css.py CSSSelector hierarchy): a simple selector, a
SequenceSelector over simple selectors (the shape the parser builds and the
data model prescribes), or a DescendantSelector. -/
inductive CSSSelector where
  | simple (s : SimpleSel)
  | seq (ss : List SimpleSel)
  | desc (ancestor descendant : CSSSelector)
deriving DecidableEq

/-- Python str.strip: drop leading and trailing whitespace. -/
def pyStrip (s : Str) : Str :=
  ((s.dropWhile isPySpace).reverse.dropWhile isPySpace).reverse

/-- ClassSelector.__init__: the stored class name is the argument with all
leading dots removed and surrounding whitespace stripped. -/
def classSelName (w : Str) : Str := pyStrip (w.dropWhile (fun c => c = '.'))

/-- The selector built from one (already lowercased) word in
CSSParser._selector: leading dot makes a class selector, an inner dot makes
a tag-plus-classes sequence, otherwise a tag selector. -/
def selInterp (w : Str) : CSSSelector :=
  if w.head? = some '.' then .simple (.cls (classSelName w))
  else if w.contains '.' then
    match pySplitOn '.' w with
    | [] => .seq []
    | t :: classes => .seq (.tag t :: classes.map (fun c => .cls (classSelName c)))
  else .simple (.tag w)

/-- The descendant-combinator loop of CSSParser._selector: keep reading words
until an opening brace (or the end), folding them in as descendants. -/
def selGo : Nat → CSSSelector → Str → Except Str (CSSSelector × Str)
  | 0, out, l => .ok (out, l)
  | fuel + 1, out, l =>
    match l with
    | [] => .ok (out, l)
    | c :: _ =>
      if c = '{' then .ok (out, l)
      else
        match cssWord l with
        | .error e => .error e
        | .ok (w, l1) => selGo fuel (.desc out (selInterp (w.map asciiLower))) (cssWhitespace l1)

/-- CSSParser._selector: first word, whitespace, then descendant words until
an opening brace. -/
def cssSelector (l : Str) : Except Str (CSSSelector × Str) :=
  match cssWord l with
  | .error e => .error e
  | .ok (w, l1) => selGo (l1.length + 1) (selInterp (w.map asciiLower)) (cssWhitespace l1)

/-- A style rule: selector plus declaration mapping. -/
abbrev Rule := CSSSelector × List (Str × Str)

/-- The rule-level error recovery of CSSParser.parse_css: scan to the next
closing brace, consume it and continue; stop at end of input. -/
def cssRecover (rules : List Rule) (e : Str) : StepRes (List Rule × Str) :=
  match ignoreUntil ['}'] e with
  | [] => .stop (rules, [])
  | _ :: e' => .next (rules, cssWhitespace e')

/-- The tail of a parse_css iteration after the opening brace: whitespace,
the declaration block, and the closing brace (recovering when it is
missing). -/
def cssAfterBrace (rules : List Rule) (sel : CSSSelector) (l2 : Str) : StepRes (List Rule × Str) :=
  let br := parseRuleBody (cssWhitespace l2)
  match cssLiteral '}' br.2 with
  | .error e => cssRecover rules e
  | .ok l5 => .next (rules ++ [(sel, br.1)], cssWhitespace l5)

/-- The tail of a parse_css iteration after a successful selector: the
opening brace (recovering when it is missing), then the rule body. -/
def cssAfterSel (rules : List Rule) (sel : CSSSelector) (l1 : Str) : StepRes (List Rule × Str) :=
  match cssLiteral '{' l1 with
  | .error e => cssRecover rules e
  | .ok l2 => cssAfterBrace rules sel l2

/-- One iteration of the CSSParser.parse_css loop: whitespace, selector,
opening brace, declaration block, closing brace; any failure recovers at the
rule level. -/
def cssStep (rules : List Rule) (l : Str) : StepRes (List Rule × Str) :=
  match l with
  | [] => .stop (rules, [])
  | _ :: _ =>
    match cssSelector (cssWhitespace l) with
    | .error e => cssRecover rules e
    | .ok (sel, l1) => cssAfterSel rules sel l1

/-- The fuel-driven parse_css loop. -/
def cssGo : Nat → List Rule → Str → List Rule
  | 0, rules, _ => rules
  | fuel + 1, rules, l =>
    match cssStep rules l with
    | .stop r => r.1
    | .next (rules', l') => cssGo fuel rules' l'

/-- CSSParser.parse_css. -/
def parseCss (l : Str) : List Rule := cssGo (l.length + 1) [] l

/-! ## Style cascade (browser.py style function)

Numbers are rationals: every Python float arithmetic step the theorems touch
(16 * 0.75, 20 * 0.5, ...) is exact in binary floating point, so the
rational model agrees with the source on those values. -/

/-- Python str slicing s[:-n]. -/
def dropRight (n : Nat) (s : Str) : Str := s.take (s.length - n)

/-- Rational addition in an explicitly computable form (the library
operations are irreducible, which would block kernel evaluation); proved
equal to the standard operation below. -/
def qAdd (a b : ℚ) : ℚ := Rat.divInt (a.num * b.den + b.num * a.den) (a.den * b.den)

/-- Computable rational subtraction. -/
def qSub (a b : ℚ) : ℚ := Rat.divInt (a.num * b.den - b.num * a.den) (a.den * b.den)

/-- Computable rational multiplication. -/
def qMul (a b : ℚ) : ℚ := Rat.divInt (a.num * b.num) (a.den * b.den)

/-- Computable rational division (0 on a zero divisor, like the library). -/
def qDiv (a b : ℚ) : ℚ := Rat.divInt (a.num * b.den) (a.den * b.num)

/-- Computable strict comparison of rationals. -/
def qLt (a b : ℚ) : Bool := a.num * b.den < b.num * a.den

/-- Computable comparison of rationals. -/
def qLe (a b : ℚ) : Bool := a.num * b.den ≤ b.num * a.den

/-- The numeric value of a run of decimal digits. -/
def digitsVal (l : Str) : Nat := l.foldl (fun acc c => acc * 10 + (c.toNat - 48)) 0

/-- Python float(str) on plain decimal literals: optional sign, digits,
optional fraction (at least one digit overall); other accepted Python forms
(exponents, inf, underscores) do not occur in the inputs the theorems touch
and are modelled as failures. -/
def pyFloat (s : Str) : Option ℚ :=
  let (sgn, t) : Int × Str :=
    match s with
    | '-' :: t => (-1, t)
    | '+' :: t => (1, t)
    | t => (1, t)
  let intPart := t.takeWhile Char.isDigit
  let rest := t.drop intPart.length
  match rest with
  | [] => if intPart.isEmpty then none else some (Rat.divInt (sgn * digitsVal intPart) 1)
  | '.' :: frac =>
    if frac.all Char.isDigit ∧ ¬(intPart.isEmpty ∧ frac.isEmpty) then
      some (Rat.divInt (sgn * ((digitsVal intPart) * 10 ^ frac.length + digitsVal frac))
        (10 ^ frac.length))
    else none
  | _ => none

/-- Decimal digits of a natural number (fuel-driven so it reduces in the
kernel). -/
def natDigitsGo : Nat → Nat → Str
  | 0, _ => []
  | _ + 1, 0 => []
  | fuel + 1, n => natDigitsGo fuel (n / 10) ++ [Char.ofNat (48 + n % 10)]

/-- Decimal representation of a natural number. -/
def natStr (n : Nat) : Str := if n = 0 then ['0'] else natDigitsGo (n + 1) n

/-- Decimal representation of an integer. -/
def intStr (i : Int) : Str := if i < 0 then '-' :: natStr i.natAbs else natStr i.natAbs

/-- Python float formatting (an f-string of a float): exact for integral
values, which Python always prints with a trailing .0 (the only values the
theorems evaluate); a non-integral value is denoted by its numerator and
denominator (such a value never reaches a theorem and the representation is
only ever inspected for its trailing characters). -/
def pyFloatRepr (q : ℚ) : Str :=
  if q.den = 1 then intStr q.num ++ s2l (r".0")
  else intStr q.num ++ '/' :: natStr q.den

/-- INHERITED_PROPERTIES (browser.py): property, default value. -/
def INHERITED_PROPERTIES : List (Str × Str) :=
  [(s2l (r"font-family"), s2l (r"Times")),
   (s2l (r"font-size"), s2l (r"16px")),
   (s2l (r"font-style"), s2l (r"normal")),
   (s2l (r"font-weight"), s2l (r"normal")),
   (s2l (r"color"), s2l (r"black"))]

/-- A Style Map: the per-node property-to-value dict, insertion ordered. -/
abbrev StyleMap := List (Str × Str)

/-- Python dict lookup returning none when absent. -/
def dictGet? (m : List (Str × Str)) (k : Str) : Option Str :=
  match m with
  | [] => none
  | (k', v) :: rest => if k' = k then some v else dictGet? rest k

/-- Lookup in an attribute mapping (value may be Python None). -/
def attrsGet? (m : List (Str × Option Str)) (k : Str) : Option (Option Str) :=
  match m with
  | [] => none
  | (k', v) :: rest => if k' = k then some v else attrsGet? rest k

/-- Modelled from the spec: Element.classes, referenced by
ClassSelector.matches but absent from the provided html.py.  The spec's data
model has class selectors match against the element's classes, so the
property is modelled as the whitespace-split of the class attribute's value
(empty when the attribute is absent or valueless). -/
def nodeClasses (attrs : List (Str × Option Str)) : List Str :=
  match attrsGet? attrs (s2l (r"class")) with
  | some (some v) => pySplit v
  | _ => []

/-- TagSelector and ClassSelector matching (css.py): only elements match. -/
def simpleMatches (s : SimpleSel) (k : NKind) : Bool :=
  match s, k with
  | .tag t, .elem tag _ => t = tag
  | .cls n, .elem _ attrs => (nodeClasses attrs).contains n
  | _, .text _ => false

/-- Each proper suffix of a list paired with its own tail: the ancestor
chain walked by DescendantSelector.matches. -/
def ctxTails {α : Type} : List α → List (α × List α)
  | [] => []
  | x :: xs => (x, xs) :: ctxTails xs

/-- CSSSelector.matches (css.py) for a node given its ancestor chain
(nearest first): a DescendantSelector requires the descendant part to match
the node and the ancestor part to match some proper ancestor (matched in
that ancestor's own context). -/
def selMatches : CSSSelector → NKind → List NKind → Bool
  | .simple s, k, _ => simpleMatches s k
  | .seq ss, k, _ => ss.all (fun s => simpleMatches s k)
  | .desc a d, k, anc =>
    selMatches d k anc && (ctxTails anc).any (fun p => selMatches a p.1 p.2)

/-- Selector priority: TagSelector 1 (the CSSSelector default), ClassSelector
10. -/
def simplePriority : SimpleSel → Nat
  | .tag _ => 1
  | .cls _ => 10

/-- Selector priority: sequences and descendants sum their parts (css.py). -/
def CSSSelector.priority : CSSSelector → Nat
  | .simple s => simplePriority s
  | .seq ss => (ss.map simplePriority).sum
  | .desc a d => a.priority + d.priority

/-- Browser.load_page cascade_priority: sort key of a rule. -/
def cascadePriority (r : Rule) : Nat := r.1.priority

/-- Stable insertion into an ascending-by-key list: an equal-key element is
placed after the existing ones. -/
def insertByKey {α : Type} (key : α → Nat) (x : α) : List α → List α
  | [] => [x]
  | y :: ys => if key y ≤ key x then y :: insertByKey key x ys else x :: y :: ys

/-- Python sorted(list, key=...): modelled by a stable insertion sort (any
stable ascending sort, Timsort included, is extensionally the same
function). -/
def pySorted {α : Type} (key : α → Nat) (l : List α) : List α :=
  l.foldl (fun acc x => insertByKey key x acc) []

/-- Overlay a declaration block onto a style map in order (the inner loop of
the rule application in style, and the inline-style update). -/
def overlayDecls : StyleMap → List (Str × Str) → StyleMap
  | m, [] => m
  | m, (k, v) :: rest => overlayDecls (dictSet m k v) rest

/-- The rule loop of style (browser.py): overlay each matching rule's
declarations in the caller-given order. -/
def applyRules (k : NKind) (anc : List NKind) : List Rule → StyleMap → StyleMap
  | [], m => m
  | (sel, body) :: rest, m =>
    applyRules k anc rest (if selMatches sel k anc then overlayDecls m body else m)

/-- The inline-style overlay of style (browser.py): an element with a style
attribute gets its parsed declaration block overlaid last (a valueless
attribute reads as the empty string). -/
def inlineOverlay (k : NKind) (m : StyleMap) : StyleMap :=
  match k with
  | .elem _ attrs =>
    match attrsGet? attrs (s2l (r"style")) with
    | some v? => overlayDecls m (parseRuleBody (v?.getD [])).1
    | none => m
  | .text _ => m

/-- The keys the inline style attribute sets on a node (for stating the
cascade invariant). -/
def inlineKeys (k : NKind) : List Str :=
  match k with
  | .elem _ attrs =>
    match attrsGet? attrs (s2l (r"style")) with
    | some v? => (parseRuleBody (v?.getD [])).1.map Prod.fst
    | none => []
  | .text _ => []

/-- The inherited-property seeding loop of style (browser.py): each of the
five inherited properties is copied from the parent's resolved map (a
missing key would raise, modelled as none) or from the defaults at the
root. -/
def seedInherited : List (Str × Str) → Option StyleMap → StyleMap → Option StyleMap
  | [], _, acc => some acc
  | (p, d) :: rest, none, acc => seedInherited rest none (dictSet acc p d)
  | (p, _) :: rest, some ps, acc =>
    match dictGet? ps p with
    | none => none
    | some v => seedInherited rest (some ps) (dictSet acc p v)

/-- The percentage font-size resolution of style (browser.py): when the
resolved font-size ends in a percent sign, replace it with the parent's
absolute size (or the root default) times the percentage, formatted as a
float with a px suffix; a missing font-size or an unparsable number raises
(none). -/
def resolveFontSize (parentStyle? : Option StyleMap) (m : StyleMap) : Option StyleMap :=
  match dictGet? m (s2l (r"font-size")) with
  | none => none
  | some fs =>
    if fs.getLast? = some '%' then
      match (match parentStyle? with
             | some ps => dictGet? ps (s2l (r"font-size"))
             | none => some (s2l (r"16px"))) with
      | none => none
      | some parentFs =>
        match pyFloat (dropRight 1 fs), pyFloat (dropRight 2 parentFs) with
        | some pct, some parentVal =>
          some (dictSet m (s2l (r"font-size"))
            (pyFloatRepr (qMul parentVal (qDiv pct 100)) ++ s2l (r"px")))
        | _, _ => none
    else some m

/-- A styled document node: the node payload, its resolved Style Map, and
its styled children. -/
inductive SNode where
  | mk (kind : NKind) (style : StyleMap) (children : List SNode)

/-- The payload of a styled node. -/
def SNode.kind : SNode → NKind
  | .mk k _ _ => k

/-- The resolved Style Map of a styled node. -/
def SNode.style : SNode → StyleMap
  | .mk _ m _ => m

/-- The children of a styled node. -/
def SNode.children : SNode → List SNode
  | .mk _ _ cs => cs

/-- Option-valued list map with explicit recursion (used for styling
children and laying out child boxes). -/
def optMapList {α β : Type} (f : α → Option β) : List α → Option (List β)
  | [] => some []
  | a :: as =>
    match f a with
    | none => none
    | some b =>
      match optMapList f as with
      | none => none
      | some bs => some (b :: bs)

/-- The style function (browser.py): seed the five inherited properties,
overlay matching rules in order, overlay the inline style, resolve a
percentage font-size, then recurse into the children (which see this node's
resolved map as their parent map).  Fuel bounds the tree depth; none models
a raised exception or exhausted fuel. -/
def styleGo (rules : List Rule) : Nat → Option StyleMap → List NKind → Node → Option SNode
  | 0, _, _, _ => none
  | fuel + 1, parentStyle?, anc, .mk k cs =>
    match seedInherited INHERITED_PROPERTIES parentStyle? [] with
    | none => none
    | some m1 =>
      let m2 := applyRules k anc rules m1
      let m3 := inlineOverlay k m2
      match resolveFontSize parentStyle? m3 with
      | none => none
      | some m4 =>
        match optMapList (styleGo rules fuel (some m4) (k :: anc)) cs with
        | none => none
        | some scs => some (.mk k m4 scs)

/-- The style entry point: style(root, rules) on the whole tree. -/
def style (rules : List Rule) (fuel : Nat) (n : Node) : Option SNode :=
  styleGo rules fuel none [] n

/-- Some rule in the list matches the node and sets the given property. -/
def ruleSets (rules : List Rule) (k : NKind) (anc : List NKind) (key : Str) : Prop :=
  ∃ r ∈ rules, selMatches r.1 k anc = true ∧ key ∈ r.2.map Prod.fst

/-- The value an untouched inherited property receives: the parent's
resolved value for non-root nodes, the fixed default at the root. -/
def inheritedValue (ps : Option StyleMap) (pd : Str × Str) : Option Str :=
  match ps with
  | none => some pd.2
  | some psm => dictGet? psm pd.1

/-- The cascade invariant (claim C8), per node of the styled tree: the five
inherited properties are always present; every present key is either one of
the five, set by a matching rule, or set by the inline style; an inherited
property that no matching rule and no inline style sets holds exactly the
parent's resolved value (the default at the root); the resolved font-size
never ends in a percent sign; and the same holds recursively for the
children, whose parent map is this node's resolved map. -/
inductive CascadeInv (rules : List Rule) : Option StyleMap → List NKind → Node → SNode → Prop where
  | mk : ∀ (ps : Option StyleMap) (anc : List NKind) (k : NKind)
      (cs : List Node) (m : StyleMap) (scs : List SNode),
      (∀ pd ∈ INHERITED_PROPERTIES, dictGet? m pd.1 ≠ none) →
      (∀ key, dictGet? m key ≠ none →
        key ∈ INHERITED_PROPERTIES.map Prod.fst ∨ ruleSets rules k anc key ∨
          key ∈ inlineKeys k) →
      (∀ pd ∈ INHERITED_PROPERTIES, ¬ruleSets rules k anc pd.1 →
        pd.1 ∉ inlineKeys k → dictGet? m pd.1 = inheritedValue ps pd) →
      (∀ v, dictGet? m (s2l (r"font-size")) = some v → v.getLast? ≠ some '%') →
      cs.length = scs.length →
      (∀ pr ∈ cs.zip scs, CascadeInv rules (some m) (k :: anc) pr.1 pr.2) →
      CascadeInv rules ps anc (.mk k cs) (.mk k m scs)

/-- The frame pushed for an implicitly opened element. -/
def implicitFrame (t : String) : Frame := ⟨s2l t, [], []⟩

theorem handleImplicitTags_of_empty (t : Str) (rt : Option Node)
    (ht : t ≠ s2l (r"html")) :
    handleImplicitTags (some t) ⟨[], rt⟩ =
      ⟨if t ∈ ([s2l (r"head"), s2l (r"body"), s2l (r"/html")] : List Str) then
          [implicitFrame (r"html")]
        else if t ∈ HEAD_TAGS then
          [implicitFrame (r"head"), implicitFrame (r"html")]
        else [implicitFrame (r"body"), implicitFrame (r"html")], rt⟩ := by
  have ht2 : t ≠ ['h', 't', 'm', 'l'] := by
    intro h
    exact ht (by rw [h]; rfl)
  by_cases h1 : t ∈ ([s2l (r"head"), s2l (r"body"), s2l (r"/html")] : List Str)
  · rw [if_pos h1]
    have h2 : ¬t ∈ HEAD_TAGS := by
      simp [HEAD_TAGS, s2l] at h1 ⊢
      rcases h1 with h | h | h <;> subst h <;> decide
    have h1c : t = ['h', 'e', 'a', 'd'] ∨ t = ['b', 'o', 'd', 'y'] ∨ t = ['/', 'h', 't', 'm', 'l'] := by
      simpa [s2l] using h1
    unfold handleImplicitTags
    simp [handleImplicitTagsGo, addTagCore, SELF_CLOSING_TAGS, stackBottom, implicitFrame, ht, ht2, h1, h2, s2l]
    tauto
  · rw [if_neg h1]
    have h1c : ¬(t = ['h', 'e', 'a', 'd'] ∨ t = ['b', 'o', 'd', 'y'] ∨ t = ['/', 'h', 't', 'm', 'l']) := by
      simpa [s2l] using h1
    by_cases h2 : t ∈ HEAD_TAGS
    · rw [if_pos h2]
      unfold handleImplicitTags
      simp [handleImplicitTagsGo, addTagCore, SELF_CLOSING_TAGS, stackBottom, implicitFrame, ht, ht2, h1, h2, s2l]
      tauto
    · rw [if_neg h2]
      unfold handleImplicitTags
      simp [handleImplicitTagsGo, addTagCore, SELF_CLOSING_TAGS, stackBottom, implicitFrame, ht, ht2, h1, h2, s2l]
      tauto

/-- C10: for every markup input, the markup parser discards whitespace-only
text runs: no Text node whose string is whitespace-only appears anywhere in
the resulting document tree. -/
theorem parse_no_whitespace_text_nodes (html : Str) (st : PState) (r : Node)
    (hp : parse html = some st) (hr : st.root = some r) : NoWsTexts r := by
  unfold parse at hp
  simp only [Option.map_eq_some'] at hp
  obtain ⟨ts, hscan, hfin⟩ := hp
  have h0 : PInv initTState.ps := by
    constructor
    · intro f hf; simp [initTState] at hf
    · intro r hr; simp [initTState] at hr
  have h1 : PInv ts.ps := PInv.scanChars hscan h0
  have h2 : PInv (if ¬ts.inTag ∧ ¬ts.text.isEmpty then addText ts.text ts.ps else ts.ps) := by
    split
    · exact h1.addText _
    · exact h1
  have h3 : PInv st := by
    subst hfin
    exact h2.finishGo _
  exact h3.2 r hr

/-- Witness for C10 at a concrete input containing a whitespace-only run
(the text between b tags is a single space and is dropped): the resulting
tree has no whitespace-only Text nodes. -/
theorem parse_no_whitespace_text_nodes_witness :
    NoWsTexts (nElem (r"html") [nElem (r"body")
      [nElem (r"p") [nText (r"hi "), nElem (r"b") [], nText (r"yo")]]]) :=
  parse_no_whitespace_text_nodes (s2l (r"<p>hi <b> </b>yo</p>"))
    ⟨[], some (nElem (r"html") [nElem (r"body")
      [nElem (r"p") [nText (r"hi "), nElem (r"b") [], nText (r"yo")]]])⟩
    _ rfl rfl

theorem rden_nz (a : ℚ) : ((a.den : ℚ)) ≠ 0 := by
  exact_mod_cast a.den_nz

theorem num_eq_mul_den (a : ℚ) : (a.num : ℚ) = a * a.den := by
  have h := Rat.num_div_den a
  rw [div_eq_iff (rden_nz a)] at h
  exact h

theorem qAdd_eq (a b : ℚ) : qAdd a b = a + b := by
  unfold qAdd
  rw [Rat.divInt_eq_div]
  push_cast
  rw [div_eq_iff (mul_ne_zero (rden_nz a) (rden_nz b))]
  rw [num_eq_mul_den a, num_eq_mul_den b]
  ring

theorem qSub_eq (a b : ℚ) : qSub a b = a - b := by
  unfold qSub
  rw [Rat.divInt_eq_div]
  push_cast
  rw [div_eq_iff (mul_ne_zero (rden_nz a) (rden_nz b))]
  rw [num_eq_mul_den a, num_eq_mul_den b]
  ring

theorem qMul_eq (a b : ℚ) : qMul a b = a * b := by
  unfold qMul
  rw [Rat.divInt_eq_div]
  push_cast
  rw [div_eq_iff (mul_ne_zero (rden_nz a) (rden_nz b))]
  rw [num_eq_mul_den a, num_eq_mul_den b]
  ring

theorem qDiv_eq (a b : ℚ) : qDiv a b = a / b := by
  unfold qDiv
  by_cases hb : b = 0
  · subst hb
    simp
  · have hbn : (b.num : ℚ) ≠ 0 := by
      exact_mod_cast Rat.num_ne_zero.mpr hb
    rw [Rat.divInt_eq_div]
    push_cast
    rw [div_eq_div_iff (mul_ne_zero (rden_nz a) hbn) hb]
    rw [num_eq_mul_den a, num_eq_mul_den b]
    ring

theorem qdens_pos (a b : ℚ) : (0 : ℚ) < (a.den : ℚ) * (b.den : ℚ) := by
  have ha : (0 : ℚ) < (a.den : ℚ) := by exact_mod_cast a.pos
  have hb : (0 : ℚ) < (b.den : ℚ) := by exact_mod_cast b.pos
  exact mul_pos ha hb

theorem qLt_iff (a b : ℚ) : qLt a b = true ↔ a < b := by
  unfold qLt
  rw [decide_eq_true_iff]
  have key : a < b ↔ (a.num : ℚ) * (b.den : ℚ) < (b.num : ℚ) * (a.den : ℚ) := by
    rw [show (a.num : ℚ) * (b.den : ℚ) = a * ((a.den : ℚ) * (b.den : ℚ)) from by
          rw [num_eq_mul_den a]; ring,
        show (b.num : ℚ) * (a.den : ℚ) = b * ((a.den : ℚ) * (b.den : ℚ)) from by
          rw [num_eq_mul_den b]; ring,
        mul_lt_mul_right (qdens_pos a b)]
  rw [key]
  constructor <;> intro h <;> exact_mod_cast h

theorem qLe_iff (a b : ℚ) : qLe a b = true ↔ a ≤ b := by
  unfold qLe
  rw [decide_eq_true_iff]
  have key : a ≤ b ↔ (a.num : ℚ) * (b.den : ℚ) ≤ (b.num : ℚ) * (a.den : ℚ) := by
    rw [show (a.num : ℚ) * (b.den : ℚ) = a * ((a.den : ℚ) * (b.den : ℚ)) from by
          rw [num_eq_mul_den a]; ring,
        show (b.num : ℚ) * (a.den : ℚ) = b * ((a.den : ℚ) * (b.den : ℚ)) from by
          rw [num_eq_mul_den b]; ring,
        mul_le_mul_right (qdens_pos a b)]
  rw [key]
  constructor <;> intro h <;> exact_mod_cast h

theorem length_dropWhile_le' {α : Type} (p : α → Bool) (l : List α) :
    (l.dropWhile p).length ≤ l.length := by
  induction l with
  | nil => simp
  | cons c cs ih =>
    by_cases h : p c
    · rw [List.dropWhile_cons, if_pos h]
      exact Nat.le_succ_of_le ih
    · rw [List.dropWhile_cons, if_neg h]

theorem length_takeWhile_le' {α : Type} (p : α → Bool) (l : List α) :
    (l.takeWhile p).length ≤ l.length := by
  induction l with
  | nil => simp
  | cons c cs ih =>
    by_cases h : p c
    · rw [List.takeWhile_cons, if_pos h]
      simpa using ih
    · rw [List.takeWhile_cons, if_neg h]
      simp

theorem length_cssWhitespace_le (l : Str) : (cssWhitespace l).length ≤ l.length :=
  length_dropWhile_le' _ _

theorem cssWhitespace_idem (l : Str) : cssWhitespace (cssWhitespace l) = cssWhitespace l := by
  unfold cssWhitespace
  induction l with
  | nil => rfl
  | cons c cs ih =>
    by_cases h : isPySpace c
    · simpa [h] using ih
    · simp [h]

theorem length_ignoreUntil_le (cs : List Char) (l : Str) :
    (ignoreUntil cs l).length ≤ l.length := by
  induction l with
  | nil => simp [ignoreUntil]
  | cons c l ih =>
    unfold ignoreUntil
    split
    · simp
    · simpa using Nat.le_succ_of_le ih

theorem ignoreUntil_append (cs : List Char) (bad l : Str)
    (h : ∀ c ∈ bad, ¬cs.contains c) :
    ignoreUntil cs (bad ++ l) = ignoreUntil cs l := by
  induction bad with
  | nil => rfl
  | cons c bad ih =>
    simp only [List.cons_append, ignoreUntil]
    rw [if_neg (by simpa using h c (List.mem_cons_self c bad))]
    exact ih (fun x hx => h x (List.mem_cons_of_mem c hx))

theorem ignoreUntil_found (cs : List Char) (c : Char) (l : Str) (h : cs.contains c) :
    ignoreUntil cs (c :: l) = c :: l := by
  simp only [ignoreUntil]
  rw [if_pos h]

theorem cssWord_ok_length {l w r : Str} (h : cssWord l = .ok (w, r)) :
    r.length < l.length := by
  simp only [cssWord] at h
  split at h
  · exact absurd h (by simp)
  · rename_i hne
    simp only [Except.ok.injEq, Prod.mk.injEq] at h
    obtain ⟨hw, hr⟩ := h
    have h1 : (l.takeWhile isWordChar).length ≤ l.length := length_takeWhile_le' _ _
    have h2 : (l.takeWhile isWordChar).length ≠ 0 := by
      simpa [List.isEmpty_iff, List.length_eq_zero] using hne
    subst hr
    simp only [List.length_drop]
    omega

theorem cssWord_error {l e : Str} (h : cssWord l = .error e) : e = l := by
  simp only [cssWord] at h
  split at h
  · simpa using h.symm
  · exact absurd h (by simp)

theorem cssLiteral_ok_length {c : Char} {l r : Str} (h : cssLiteral c l = .ok r) :
    r.length < l.length := by
  cases l with
  | nil => simp [cssLiteral] at h
  | cons x xs =>
    simp only [cssLiteral] at h
    split at h
    · simp only [Except.ok.injEq] at h
      subst h
      simp
    · exact absurd h (by simp)

theorem cssLiteral_error {c : Char} {l e : Str} (h : cssLiteral c l = .error e) : e = l := by
  cases l with
  | nil =>
    simp only [cssLiteral, Except.error.injEq] at h
    simp [h.symm]
  | cons x xs =>
    simp only [cssLiteral] at h
    split at h
    · exact absurd h (by simp)
    · simpa using h.symm

theorem cssPair_ok_length {l : Str} {pv : Str × Str} {r : Str}
    (h : cssPair l = .ok (pv, r)) : r.length < l.length := by
  unfold cssPair at h
  split at h
  · exact absurd h (by simp)
  · rename_i prop l1 h1
    split at h
    · exact absurd h (by simp)
    · rename_i l3 h2
      split at h
      · exact absurd h (by simp)
      · rename_i val l5 h3
        simp only [Except.ok.injEq, Prod.mk.injEq] at h
        have hr : l5 = r := h.2
        subst hr
        have a1 := cssWord_ok_length h1
        have a2 := length_cssWhitespace_le l1
        have a3 := cssLiteral_ok_length h2
        have a4 := length_cssWhitespace_le l3
        have a5 := cssWord_ok_length h3
        omega

theorem cssPair_error_length {l e : Str} (h : cssPair l = .error e) :
    e.length ≤ l.length := by
  unfold cssPair at h
  split at h
  · rename_i e1 h1
    simp only [Except.error.injEq] at h
    subst h
    rw [cssWord_error h1]
  · rename_i prop l1 h1
    have a1 := cssWord_ok_length h1
    have a2 := length_cssWhitespace_le l1
    split at h
    · rename_i e2 h2
      simp only [Except.error.injEq] at h
      subst h
      have h3 := cssLiteral_error h2
      subst h3
      omega
    · rename_i l3 h2
      have a3 := cssLiteral_ok_length h2
      have a4 := length_cssWhitespace_le l3
      split at h
      · rename_i e3 h3
        simp only [Except.error.injEq] at h
        subst h
        have h4 := cssWord_error h3
        subst h4
        omega
      · exact absurd h (by simp)

theorem selGo_ok_length {fuel : Nat} {out sel : CSSSelector} {l r : Str}
    (h : selGo fuel out l = .ok (sel, r)) : r.length ≤ l.length := by
  induction fuel generalizing out l with
  | zero =>
    simp only [selGo, Except.ok.injEq, Prod.mk.injEq] at h
    rw [← h.2]
  | succ n ih =>
    cases l with
    | nil =>
      simp only [selGo, Except.ok.injEq, Prod.mk.injEq] at h
      rw [← h.2]
    | cons c cs =>
      simp only [selGo] at h
      split at h
      · simp only [Except.ok.injEq, Prod.mk.injEq] at h
        rw [← h.2]
      · split at h
        · exact absurd h (by simp)
        · rename_i w l1 h1
          have a1 := cssWord_ok_length h1
          have a2 := length_cssWhitespace_le l1
          have a3 := ih h
          omega

theorem selGo_error_length {fuel : Nat} {out : CSSSelector} {l e : Str}
    (h : selGo fuel out l = .error e) : e.length ≤ l.length := by
  induction fuel generalizing out l with
  | zero => exact absurd h (by simp [selGo])
  | succ n ih =>
    cases l with
    | nil => exact absurd h (by simp [selGo])
    | cons c cs =>
      simp only [selGo] at h
      split at h
      · exact absurd h (by simp)
      · split at h
        · rename_i e1 h1
          simp only [Except.error.injEq] at h
          subst h
          rw [cssWord_error h1]
        · rename_i w l1 h1
          have a1 := cssWord_ok_length h1
          have a2 := length_cssWhitespace_le l1
          have a3 := ih h
          omega

theorem cssSelector_ok_length {l : Str} {sel : CSSSelector} {r : Str}
    (h : cssSelector l = .ok (sel, r)) : r.length < l.length := by
  unfold cssSelector at h
  split at h
  · exact absurd h (by simp)
  · rename_i w l1 h1
    have a1 := cssWord_ok_length h1
    have a2 := length_cssWhitespace_le l1
    have a3 := selGo_ok_length h
    omega

theorem cssSelector_error_length {l e : Str} (h : cssSelector l = .error e) :
    e.length ≤ l.length := by
  unfold cssSelector at h
  split at h
  · rename_i e1 h1
    simp only [Except.error.injEq] at h
    subst h
    rw [cssWord_error h1]
  · rename_i w l1 h1
    have a1 := cssWord_ok_length h1
    have a2 := length_cssWhitespace_le l1
    have a3 := selGo_error_length h
    omega

theorem rbRecover_next_length {p p' : List (Str × Str)} {e l' : Str}
    (h : rbRecover p e = .next (p', l')) : l'.length + 1 ≤ e.length := by
  unfold rbRecover at h
  split at h
  · exact absurd h (by simp)
  · rename_i c e' heq
    split at h
    · simp only [StepRes.next.injEq, Prod.mk.injEq] at h
      have hl : cssWhitespace e' = l' := h.2
      have a1 : (c :: e').length ≤ e.length := heq ▸ length_ignoreUntil_le _ e
      have a2 := length_cssWhitespace_le e'
      rw [← hl]
      simp only [List.length_cons] at a1
      omega
    · exact absurd h (by simp)

theorem rbRecover_stop_length {p p' : List (Str × Str)} {e r : Str}
    (h : rbRecover p e = .stop (p', r)) : r.length ≤ e.length := by
  unfold rbRecover at h
  split at h
  · simp only [StepRes.stop.injEq, Prod.mk.injEq] at h
    rw [← h.2]
    simp
  · rename_i c e' heq
    split at h
    · exact absurd h (by simp)
    · simp only [StepRes.stop.injEq, Prod.mk.injEq] at h
      rw [← h.2]
      exact heq ▸ length_ignoreUntil_le _ e

theorem rbAfterPair_next_length {p : List (Str × Str)} {l2 : Str}
    {pr : List (Str × Str) × Str}
    (h : rbAfterPair p l2 = .next pr) : pr.2.length ≤ l2.length := by
  unfold rbAfterPair at h
  cases hlit : cssLiteral ';' l2 with
  | error e =>
    rw [hlit] at h
    obtain ⟨p', l'⟩ := pr
    have a1 := cssLiteral_error hlit
    have a2 := rbRecover_next_length h
    rw [a1] at a2
    simp only
    omega
  | ok l3 =>
    rw [hlit] at h
    have hl : (p, cssWhitespace l3) = pr := by cases h; rfl
    have a1 := cssLiteral_ok_length hlit
    have a2 := length_cssWhitespace_le l3
    rw [← hl]
    simp only
    omega

theorem rbAfterPair_stop_length {p : List (Str × Str)} {l2 : Str}
    {pr : List (Str × Str) × Str}
    (h : rbAfterPair p l2 = .stop pr) : pr.2.length ≤ l2.length := by
  unfold rbAfterPair at h
  cases hlit : cssLiteral ';' l2 with
  | error e =>
    rw [hlit] at h
    have a1 := cssLiteral_error hlit
    have a2 := rbRecover_stop_length h
    rw [a1] at a2
    exact a2
  | ok l3 =>
    rw [hlit] at h
    exact absurd h (by simp)

theorem rbStep_next_length {p : List (Str × Str)} {l : Str}
    {pr : List (Str × Str) × Str}
    (h : rbStep p l = .next pr) : pr.2.length < l.length := by
  cases l with
  | nil => exact absurd h (by simp [rbStep])
  | cons c cs =>
    simp only [rbStep] at h
    split at h
    · exact absurd h (by simp)
    · cases hpair : cssPair (c :: cs) with
      | error e =>
        rw [hpair] at h
        have h2 : rbRecover p e = .next pr := h
        obtain ⟨p', l'⟩ := pr
        have a1 := cssPair_error_length hpair
        have a2 := rbRecover_next_length h2
        simp only [List.length_cons] at a1 ⊢
        omega
      | ok pvl =>
        obtain ⟨⟨pn, v⟩, l1⟩ := pvl
        rw [hpair] at h
        have h2 : rbAfterPair (dictSet p pn v) (cssWhitespace l1) = .next pr := h
        have a1 := cssPair_ok_length hpair
        have a2 := length_cssWhitespace_le l1
        have a3 := rbAfterPair_next_length h2
        simp only [List.length_cons] at a1 ⊢
        omega

theorem rbStep_stop_length {p : List (Str × Str)} {l : Str}
    {pr : List (Str × Str) × Str}
    (h : rbStep p l = .stop pr) : pr.2.length ≤ l.length := by
  cases l with
  | nil =>
    simp only [rbStep] at h
    have hl : (p, ([] : Str)) = pr := by cases h; rfl
    rw [← hl]
  | cons c cs =>
    simp only [rbStep] at h
    split at h
    · have hl : (p, c :: cs) = pr := by cases h; rfl
      rw [← hl]
    · cases hpair : cssPair (c :: cs) with
      | error e =>
        rw [hpair] at h
        have h2 : rbRecover p e = .stop pr := h
        have a1 := cssPair_error_length hpair
        have a2 := rbRecover_stop_length h2
        omega
      | ok pvl =>
        obtain ⟨⟨pn, v⟩, l1⟩ := pvl
        rw [hpair] at h
        have h2 : rbAfterPair (dictSet p pn v) (cssWhitespace l1) = .stop pr := h
        have a1 := cssPair_ok_length hpair
        have a2 := length_cssWhitespace_le l1
        have a3 := rbAfterPair_stop_length h2
        simp only [List.length_cons] at a1 ⊢
        omega

theorem rbGo_rest_length (fuel : Nat) (p : List (Str × Str)) (l : Str) :
    (rbGo fuel p l).2.length ≤ l.length := by
  induction fuel generalizing p l with
  | zero => simp [rbGo]
  | succ n ih =>
    unfold rbGo
    cases heq : rbStep p l with
    | stop r => exact rbStep_stop_length heq
    | next pr =>
      obtain ⟨p', l'⟩ := pr
      have a1 := rbStep_next_length heq
      have a2 := ih p' l'
      show (rbGo n p' l').2.length ≤ l.length
      simp only at a1
      omega

theorem rbGoMono (f1 f2 : Nat) (p : List (Str × Str)) (l : Str)
    (h1 : l.length < f1) (h2 : l.length < f2) : rbGo f1 p l = rbGo f2 p l := by
  induction f1 generalizing f2 p l with
  | zero => omega
  | succ n ih =>
    cases f2 with
    | zero => omega
    | succ m =>
      unfold rbGo
      cases heq : rbStep p l with
      | stop r => rfl
      | next pr =>
        obtain ⟨p', l'⟩ := pr
        have a1 := rbStep_next_length heq
        simp only at a1
        show rbGo n p' l' = rbGo m p' l'
        exact ih m p' l' (by omega) (by omega)

theorem cssRecover_next_length {rules rules' : List Rule} {e l' : Str}
    (h : cssRecover rules e = .next (rules', l')) : l'.length + 1 ≤ e.length := by
  unfold cssRecover at h
  split at h
  · exact absurd h (by simp)
  · rename_i c e' heq
    simp only [StepRes.next.injEq, Prod.mk.injEq] at h
    have hl : cssWhitespace e' = l' := h.2
    have a1 : (c :: e').length ≤ e.length := heq ▸ length_ignoreUntil_le _ e
    have a2 := length_cssWhitespace_le e'
    rw [← hl]
    simp only [List.length_cons] at a1
    omega

theorem cssAfterBrace_next_length {rules : List Rule} {sel : CSSSelector} {l2 : Str}
    {pr : List Rule × Str}
    (h : cssAfterBrace rules sel l2 = .next pr) : pr.2.length ≤ l2.length := by
  simp only [cssAfterBrace] at h
  have a0 := rbGo_rest_length ((cssWhitespace l2).length + 1) [] (cssWhitespace l2)
  have a1 := length_cssWhitespace_le l2
  cases hcl : cssLiteral '}' (parseRuleBody (cssWhitespace l2)).2 with
  | error e =>
    rw [hcl] at h
    obtain ⟨rules', l'⟩ := pr
    have a2 := cssLiteral_error hcl
    have a3 := cssRecover_next_length h
    rw [a2] at a3
    simp only [parseRuleBody] at a3
    simp only
    omega
  | ok l5 =>
    rw [hcl] at h
    have hl : (rules ++ [(sel, (parseRuleBody (cssWhitespace l2)).1)], cssWhitespace l5) = pr := by
      cases h; rfl
    have a2 := cssLiteral_ok_length hcl
    have a3 := length_cssWhitespace_le l5
    simp only [parseRuleBody] at a2
    rw [← hl]
    simp only
    omega

theorem cssAfterSel_next_length {rules : List Rule} {sel : CSSSelector} {l1 : Str}
    {pr : List Rule × Str}
    (h : cssAfterSel rules sel l1 = .next pr) : pr.2.length ≤ l1.length := by
  unfold cssAfterSel at h
  cases hb : cssLiteral '{' l1 with
  | error e =>
    rw [hb] at h
    obtain ⟨rules', l'⟩ := pr
    have a1 := cssLiteral_error hb
    have a2 := cssRecover_next_length h
    rw [a1] at a2
    simp only
    omega
  | ok l2 =>
    rw [hb] at h
    have a1 := cssLiteral_ok_length hb
    have a2 := cssAfterBrace_next_length h
    omega

theorem cssStep_next_length {rules : List Rule} {l : Str} {pr : List Rule × Str}
    (h : cssStep rules l = .next pr) : pr.2.length < l.length := by
  cases l with
  | nil => exact absurd h (by simp [cssStep])
  | cons c cs =>
    simp only [cssStep] at h
    have a0 := length_cssWhitespace_le (c :: cs)
    cases hsel : cssSelector (cssWhitespace (c :: cs)) with
    | error e =>
      rw [hsel] at h
      have h2 : cssRecover rules e = .next pr := h
      obtain ⟨rules', l'⟩ := pr
      have a1 := cssSelector_error_length hsel
      have a2 := cssRecover_next_length h2
      simp only [List.length_cons] at a0 a1 ⊢
      omega
    | ok slr =>
      obtain ⟨sel, l1⟩ := slr
      rw [hsel] at h
      have h2 : cssAfterSel rules sel l1 = .next pr := h
      have a1 := cssSelector_ok_length hsel
      have a2 := cssAfterSel_next_length h2
      simp only [List.length_cons] at a0 a1 ⊢
      omega

theorem cssGoMono (f1 f2 : Nat) (rules : List Rule) (l : Str)
    (h1 : l.length < f1) (h2 : l.length < f2) : cssGo f1 rules l = cssGo f2 rules l := by
  induction f1 generalizing f2 rules l with
  | zero => omega
  | succ n ih =>
    cases f2 with
    | zero => omega
    | succ m =>
      unfold cssGo
      cases heq : cssStep rules l with
      | stop r => rfl
      | next pr =>
        obtain ⟨rules', l'⟩ := pr
        have a1 := cssStep_next_length heq
        simp only at a1
        show cssGo n rules' l' = cssGo m rules' l'
        exact ih m rules' l' (by omega) (by omega)

theorem cssWhitespace_cons_not_space {c : Char} (l : Str) (h : isPySpace c = false) :
    cssWhitespace (c :: l) = c :: l := by
  unfold cssWhitespace
  rw [List.dropWhile_cons, if_neg (by simp [h])]

theorem cssWord_bad_head {c : Char} (l : Str) (h : isWordChar c = false) :
    cssWord (c :: l) = .error (c :: l) := by
  have ht : (c :: l).takeWhile isWordChar = [] := by
    rw [List.takeWhile_cons, if_neg (by simp [h])]
  simp only [cssWord]
  rw [ht]
  rfl

theorem ignoreUntil_bad_lead (cs : List Char) (bad l : Str) (stop : Char)
    (hbad : ∀ c ∈ bad, c ∉ cs) (hstop : stop ∈ cs) :
    ignoreUntil cs (bad ++ stop :: l) = stop :: l := by
  rw [ignoreUntil_append cs bad (stop :: l)
    (fun c hc => by simpa using hbad c hc)]
  exact ignoreUntil_found cs stop l (by simpa using hstop)

theorem cssStep_bad_lead (rules : List Rule) (junk rest : Str)
    (h : '}' ∉ ('@' :: junk)) :
    cssStep rules ('@' :: (junk ++ '}' :: rest)) = .next (rules, cssWhitespace rest) := by
  have hws : cssWhitespace ('@' :: (junk ++ '}' :: rest)) = '@' :: (junk ++ '}' :: rest) :=
    cssWhitespace_cons_not_space _ (by decide)
  have hword : cssWord ('@' :: (junk ++ '}' :: rest)) = .error ('@' :: (junk ++ '}' :: rest)) :=
    cssWord_bad_head _ (by decide)
  have hsel : cssSelector ('@' :: (junk ++ '}' :: rest)) =
      .error ('@' :: (junk ++ '}' :: rest)) := by
    unfold cssSelector
    rw [hword]
  have hig : ignoreUntil ['}'] ('@' :: (junk ++ '}' :: rest)) = '}' :: rest := by
    have hsplit : ('@' :: junk) ++ ('}' :: rest) = '@' :: (junk ++ '}' :: rest) := by simp
    rw [← hsplit]
    exact ignoreUntil_bad_lead _ _ _ _
      (fun c hc => by
        intro hmem
        have hc2 : c = '}' := by simpa using hmem
        subst hc2
        exact h hc)
      (by simp)
  simp only [cssStep]
  rw [hws, hsel]
  simp only [cssRecover]
  rw [hig]

theorem rbStep_bad_prefix_semi (pairs : List (Str × Str)) (junk rest : Str)
    (h1 : ';' ∉ ('@' :: junk)) (h2 : '}' ∉ ('@' :: junk)) :
    rbStep pairs ('@' :: (junk ++ ';' :: rest)) = .next (pairs, cssWhitespace rest) := by
  have hword : cssWord ('@' :: (junk ++ ';' :: rest)) = .error ('@' :: (junk ++ ';' :: rest)) :=
    cssWord_bad_head _ (by decide)
  have hpair : cssPair ('@' :: (junk ++ ';' :: rest)) =
      .error ('@' :: (junk ++ ';' :: rest)) := by
    unfold cssPair
    rw [hword]
  have hig : ignoreUntil [';', '}'] ('@' :: (junk ++ ';' :: rest)) = ';' :: rest := by
    have hsplit : ('@' :: junk) ++ (';' :: rest) = '@' :: (junk ++ ';' :: rest) := by simp
    rw [← hsplit]
    exact ignoreUntil_bad_lead _ _ _ _
      (fun c hc => by
        intro hmem
        rcases List.mem_cons.mp hmem with hc2 | hc2
        · subst hc2; exact h1 hc
        · have hc3 : c = '}' := by simpa using hc2
          subst hc3; exact h2 hc)
      (by simp)
  simp only [rbStep]
  rw [if_neg (by decide), hpair]
  simp only [rbRecover]
  rw [hig]
  simp

theorem rbStep_bad_prefix_brace (pairs : List (Str × Str)) (junk rest : Str)
    (h1 : ';' ∉ ('@' :: junk)) (h2 : '}' ∉ ('@' :: junk)) :
    rbStep pairs ('@' :: (junk ++ '}' :: rest)) = .stop (pairs, '}' :: rest) := by
  have hword : cssWord ('@' :: (junk ++ '}' :: rest)) = .error ('@' :: (junk ++ '}' :: rest)) :=
    cssWord_bad_head _ (by decide)
  have hpair : cssPair ('@' :: (junk ++ '}' :: rest)) =
      .error ('@' :: (junk ++ '}' :: rest)) := by
    unfold cssPair
    rw [hword]
  have hig : ignoreUntil [';', '}'] ('@' :: (junk ++ '}' :: rest)) = '}' :: rest := by
    have hsplit : ('@' :: junk) ++ ('}' :: rest) = '@' :: (junk ++ '}' :: rest) := by simp
    rw [← hsplit]
    exact ignoreUntil_bad_lead _ _ _ _
      (fun c hc => by
        intro hmem
        rcases List.mem_cons.mp hmem with hc2 | hc2
        · subst hc2; exact h1 hc
        · have hc3 : c = '}' := by simpa using hc2
          subst hc3; exact h2 hc)
      (by simp)
  simp only [rbStep]
  rw [if_neg (by decide), hpair]
  simp only [rbRecover]
  rw [hig]
  simp

theorem cssStep_ws (rules : List Rule) (l : Str) (h1 : l ≠ [])
    (h2 : cssWhitespace l ≠ []) :
    cssStep rules l = cssStep rules (cssWhitespace l) := by
  cases l with
  | nil => exact absurd rfl h1
  | cons c cs =>
    cases hw : cssWhitespace (c :: cs) with
    | nil => exact absurd hw h2
    | cons d ds =>
      simp only [cssStep]
      rw [← hw, cssWhitespace_idem]

theorem cssGo_ws (f1 f2 : Nat) (rules : List Rule) (l : Str)
    (h1 : (cssWhitespace l).length < f1) (h2 : l.length < f2) :
    cssGo f1 rules (cssWhitespace l) = cssGo f2 rules l := by
  have hws := length_cssWhitespace_le l
  cases hw : cssWhitespace l with
  | nil =>
    cases l with
    | nil =>
      match f1, h1 with
      | n + 1, _ =>
        match f2, h2 with
        | m + 1, _ => rfl
    | cons c cs =>
      match f1, h1 with
      | n + 1, _ =>
        match f2, h2 with
        | m + 1, _ =>
          simp only [cssGo, cssStep]
          rw [hw]
          simp [cssSelector, cssWord, cssRecover, ignoreUntil]
  | cons d ds =>
    match f1, h1 with
    | n + 1, _ =>
      match f2, h2 with
      | m + 1, _ =>
        have hlne : l ≠ [] := by
          intro hnil
          subst hnil
          simp [cssWhitespace] at hw
        have hstep := cssStep_ws rules l hlne (by rw [hw]; simp)
        unfold cssGo
        rw [← hw, ← hstep]
        cases heq : cssStep rules l with
        | stop r => rfl
        | next pr =>
          obtain ⟨rules', l'⟩ := pr
          have heq2 : cssStep rules (cssWhitespace l) = .next (rules', l') := by
            rw [← hstep]; exact heq
          have a1 := cssStep_next_length heq2
          have a2 := cssStep_next_length heq
          simp only at a1 a2
          show cssGo n rules' l' = cssGo m rules' l'
          exact cssGoMono n m rules' l' (by omega) (by omega)

/-- C9: a parse failure in one rule or declaration never aborts parsing of
the rest of the stylesheet: a rule-level failure (here an arbitrary malformed
prefix containing no closing brace) is recovered by scanning to the next
closing brace, after which parsing proceeds exactly as on the remaining
text; a declaration-level failure is recovered by scanning to the next
semicolon (resuming within the body after whitespace) or to the next closing
brace (ending the body there, with the brace left for the rule level). -/
theorem c9_error_recovery :
    (∀ junk rest : Str, '}' ∉ ('@' :: junk) →
      parseCss ('@' :: (junk ++ '}' :: rest)) = parseCss rest) ∧
    (∀ junk rest : Str, ';' ∉ ('@' :: junk) → '}' ∉ ('@' :: junk) →
      parseRuleBody ('@' :: (junk ++ ';' :: rest)) = parseRuleBody (cssWhitespace rest)) ∧
    (∀ junk rest : Str, ';' ∉ ('@' :: junk) → '}' ∉ ('@' :: junk) →
      parseRuleBody ('@' :: (junk ++ '}' :: rest)) = ([], '}' :: rest)) := by
  refine ⟨?_, ?_, ?_⟩
  · intro junk rest h
    show cssGo (('@' :: (junk ++ '}' :: rest)).length + 1) [] ('@' :: (junk ++ '}' :: rest)) =
      parseCss rest
    unfold cssGo
    rw [cssStep_bad_lead [] junk rest h]
    show cssGo (('@' :: (junk ++ '}' :: rest)).length) [] (cssWhitespace rest) = parseCss rest
    have hlen : rest.length < ('@' :: (junk ++ '}' :: rest)).length := by
      simp
      omega
    have h1 : (cssWhitespace rest).length < ('@' :: (junk ++ '}' :: rest)).length := by
      have := length_cssWhitespace_le rest
      omega
    exact cssGo_ws _ _ [] rest h1 (by omega)
  · intro junk rest h1 h2
    show rbGo (('@' :: (junk ++ ';' :: rest)).length + 1) [] ('@' :: (junk ++ ';' :: rest)) =
      parseRuleBody (cssWhitespace rest)
    unfold rbGo
    rw [rbStep_bad_prefix_semi [] junk rest h1 h2]
    show rbGo (('@' :: (junk ++ ';' :: rest)).length) [] (cssWhitespace rest) =
      parseRuleBody (cssWhitespace rest)
    have hlen : (cssWhitespace rest).length < ('@' :: (junk ++ ';' :: rest)).length := by
      have := length_cssWhitespace_le rest
      simp
      omega
    exact rbGoMono _ _ [] (cssWhitespace rest) hlen (by omega)
  · intro junk rest h1 h2
    show rbGo (('@' :: (junk ++ '}' :: rest)).length + 1) [] ('@' :: (junk ++ '}' :: rest)) =
      ([], '}' :: rest)
    unfold rbGo
    rw [rbStep_bad_prefix_brace [] junk rest h1 h2]

/-- Witness for C9 at a concrete sheet: a malformed rule is skipped to its
closing brace and the following well-formed rule is still parsed; a
malformed declaration is skipped to the semicolon and the following
declaration still parsed. -/
theorem c9_error_recovery_witness :
    parseCss ('@' :: (s2l (r"bad css ") ++ '}' :: s2l (r" h1 { color: green; }"))) =
      parseCss (s2l (r" h1 { color: green; }")) ∧
    parseCss (s2l (r" h1 { color: green; }")) =
      [(.simple (.tag (s2l (r"h1"))), [(s2l (r"color"), s2l (r"green"))])] ∧
    parseRuleBody ('@' :: (s2l (r"bad decl ") ++ ';' :: s2l (r" color: red; }"))) =
      parseRuleBody (cssWhitespace (s2l (r" color: red; }"))) ∧
    parseRuleBody (cssWhitespace (s2l (r" color: red; }"))) =
      ([(s2l (r"color"), s2l (r"red"))], ['}']) :=
  ⟨c9_error_recovery.1 (s2l (r"bad css ")) (s2l (r" h1 { color: green; }")) (by decide),
   rfl,
   c9_error_recovery.2.1 (s2l (r"bad decl ")) (s2l (r" color: red; }")) (by decide) (by decide),
   rfl⟩

theorem closeTop_stack_length (st : PState) :
    (closeTop st).stack.length = st.stack.length - 1 := by
  unfold closeTop attachNode
  cases hs : st.stack with
  | nil => simp [hs]
  | cons f fs =>
    cases fs with
    | cons g gs => simp
    | nil =>
      cases hr : st.root with
      | some r => simp
      | none => simp

/-- C2 (counterexample): for the markup p-hi, which is missing the html, head
and body tags, parse produces an html root whose children are a single body
element: there is no head child, so the first two children of the root are
not one head followed by one body. -/
theorem c2_counterexample :
    parseRoot (s2l (r"<p>hi</p>")) =
      some (some (nElem (r"html") [nElem (r"body") [nElem (r"p") [nText (r"hi")]]])) ∧
    (nElem (r"html") [nElem (r"body") [nElem (r"p") [nText (r"hi")]]]).children.map Node.tag? =
      [some (s2l (r"body"))] :=
  ⟨rfl, rfl⟩

/-- C2 (amended): parse repairs missing structure toward an html skeleton:
from an empty stack the repair loop opens an implicit html, then an implicit
head for head-only tags or an implicit body for any other content; hence
markup with head-only content followed by body content yields exactly one
head then one body as the root's first two children, while markup with only
body content yields a single body child and no head. -/
theorem c2_implicit_structure :
    parseRoot (s2l (r"<title>t</title><p>x</p>")) =
      some (some (nElem (r"html")
        [nElem (r"head") [nElem (r"title") [nText (r"t")]],
         nElem (r"body") [nElem (r"p") [nText (r"x")]]])) ∧
    parseRoot (s2l (r"<p>hi</p>")) =
      some (some (nElem (r"html") [nElem (r"body") [nElem (r"p") [nText (r"hi")]]])) ∧
    ∀ (t : Str) (rt : Option Node), t ≠ s2l (r"html") →
      handleImplicitTags (some t) ⟨[], rt⟩ =
        ⟨if t ∈ ([s2l (r"head"), s2l (r"body"), s2l (r"/html")] : List Str) then
            [implicitFrame (r"html")]
          else if t ∈ HEAD_TAGS then
            [implicitFrame (r"head"), implicitFrame (r"html")]
          else [implicitFrame (r"body"), implicitFrame (r"html")], rt⟩ :=
  ⟨rfl, rfl, fun t rt ht => handleImplicitTags_of_empty t rt ht⟩

/-- Witness for C2 (amended) at the concrete tag p from an empty stack: the
repair opens html then body. -/
theorem c2_implicit_structure_witness :
    handleImplicitTags (some (s2l (r"p"))) ⟨[], none⟩ =
      ⟨[implicitFrame (r"body"), implicitFrame (r"html")], none⟩ := by
  have h := c2_implicit_structure.2.2 (s2l (r"p")) none (by decide)
  rw [if_neg (by decide), if_neg (by decide)] at h
  exact h

/-- C4 (counterexample): after scanning the markup p-hi the unfinished stack
is body over html (depth 2) and the tree-building state is reachable;
processing the unmatched closing p tag on that state is not ignored: it pops
the open body element and attaches it into the html frame, leaving depth 1. -/
theorem c4_counterexample :
    (scanChars (s2l (r"<p>hi</p>")) initTState).map (fun ts => ts.ps) =
      some ⟨[⟨s2l (r"body"), [], [nElem (r"p") [nText (r"hi")]]⟩, implicitFrame (r"html")], none⟩ ∧
    addTag (s2l (r"/p")) []
        ⟨[⟨s2l (r"body"), [], [nElem (r"p") [nText (r"hi")]]⟩, implicitFrame (r"html")], none⟩ =
      ⟨[⟨s2l (r"html"), [], [nElem (r"body") [nElem (r"p") [nText (r"hi")]]]⟩], none⟩ :=
  ⟨rfl, rfl⟩

/-- C4 (amended): a closing tag event is never ignored: the implicit repair
leaves a nonempty unfinished stack, the event is exactly a pop-and-attach of
the innermost unfinished element, and the stack depth after the event is one
less than the post-repair depth (so the empty-stack recovery branch of the
source is unreachable for closing tags). -/
theorem c4_closing_pops (st : PState) (rest : Str) :
    (handleImplicitTags (some ('/' :: rest)) st).stack ≠ [] ∧
    addTag ('/' :: rest) [] st = closeTop (handleImplicitTags (some ('/' :: rest)) st) ∧
    (addTag ('/' :: rest) [] st).stack.length + 1 =
      (handleImplicitTags (some ('/' :: rest)) st).stack.length := by
  have hne : (handleImplicitTags (some ('/' :: rest)) st).stack ≠ [] := by
    refine handleImplicitTags_stack_ne_nil _ _ ?_
    intro h
    simp [s2l] at h
  have heq : addTag ('/' :: rest) [] st =
      closeTop (handleImplicitTags (some ('/' :: rest)) st) := by
    unfold addTag
    rw [if_neg (by simp)]
    unfold addTagCore
    rw [if_pos (by simp)]
    cases hs : (handleImplicitTags (some ('/' :: rest)) st).stack with
    | nil => exact absurd hs hne
    | cons f fs => simp
  refine ⟨hne, heq, ?_⟩
  rw [heq, closeTop_stack_length]
  have : (handleImplicitTags (some ('/' :: rest)) st).stack.length ≠ 0 := by
    simpa [List.length_eq_zero] using hne
  omega

theorem dictGet_dictSet (m : List (Str × Str)) (k v key : Str) :
    dictGet? (dictSet m k v) key = if key = k then some v else dictGet? m key := by
  induction m with
  | nil =>
    show (if k = key then some v else none) = if key = k then some v else dictGet? ([] : List (Str × Str)) key
    by_cases h : key = k
    · subst h
      simp
    · rw [if_neg (fun hh => h hh.symm), if_neg h]
      rfl
  | cons hd rest ih =>
    obtain ⟨k', v'⟩ := hd
    show dictGet? (if k' = k then (k, v) :: rest else (k', v') :: dictSet rest k v) key = _
    by_cases hk : k' = k
    · rw [if_pos hk]
      subst hk
      show (if k' = key then some v else dictGet? rest key) =
        if key = k' then some v else (if k' = key then some v' else dictGet? rest key)
      by_cases h : key = k'
      · subst h
        simp
      · rw [if_neg (fun hh => h hh.symm), if_neg h, if_neg (fun hh => h hh.symm)]
    · rw [if_neg hk]
      show (if k' = key then some v' else dictGet? (dictSet rest k v) key) =
        if key = k then some v else (if k' = key then some v' else dictGet? rest key)
      by_cases h : k' = key
      · subst h
        rw [if_pos rfl, if_pos rfl, if_neg hk]
      · rw [if_neg h, if_neg h, ih]

theorem dictGet_dictSet_self (m : List (Str × Str)) (k v : Str) :
    dictGet? (dictSet m k v) k = some v := by
  rw [dictGet_dictSet, if_pos rfl]

theorem dictGet_dictSet_ne (m : List (Str × Str)) (k v key : Str) (h : key ≠ k) :
    dictGet? (dictSet m k v) key = dictGet? m key := by
  rw [dictGet_dictSet, if_neg h]

theorem seed_preserves {l : List (Str × Str)} {ps : Option StyleMap}
    {acc m : StyleMap} (h : seedInherited l ps acc = some m) (key : Str)
    (hacc : dictGet? acc key ≠ none) : dictGet? m key ≠ none := by
  induction l generalizing acc with
  | nil =>
    cases ps <;> simp only [seedInherited, Option.some.injEq] at h <;> rw [← h] <;> exact hacc
  | cons pd rest ih =>
    obtain ⟨p, d⟩ := pd
    cases ps with
    | none =>
      simp only [seedInherited] at h
      refine ih h ?_
      rw [dictGet_dictSet]
      split
      · simp
      · exact hacc
    | some psm =>
      simp only [seedInherited] at h
      split at h
      · exact absurd h (by simp)
      · refine ih h ?_
        rw [dictGet_dictSet]
        split
        · simp
        · exact hacc

theorem seed_present {l : List (Str × Str)} {ps : Option StyleMap}
    {acc m : StyleMap} (h : seedInherited l ps acc = some m) :
    ∀ pd ∈ l, dictGet? m pd.1 ≠ none := by
  induction l generalizing acc with
  | nil => intro pd hpd; simp at hpd
  | cons hd rest ih =>
    obtain ⟨p, d⟩ := hd
    intro pd hpd
    rcases List.mem_cons.mp hpd with hpd | hpd
    · subst hpd
      cases ps with
      | none =>
        simp only [seedInherited] at h
        refine seed_preserves h _ ?_
        rw [dictGet_dictSet]
        simp
      | some psm =>
        simp only [seedInherited] at h
        split at h
        · exact absurd h (by simp)
        · refine seed_preserves h _ ?_
          rw [dictGet_dictSet]
          simp
    · cases ps with
      | none =>
        simp only [seedInherited] at h
        exact ih h pd hpd
      | some psm =>
        simp only [seedInherited] at h
        split at h
        · exact absurd h (by simp)
        · exact ih h pd hpd

theorem seed_keys {l : List (Str × Str)} {ps : Option StyleMap}
    {acc m : StyleMap} (h : seedInherited l ps acc = some m) (key : Str)
    (hm : dictGet? m key ≠ none) :
    key ∈ l.map Prod.fst ∨ dictGet? acc key ≠ none := by
  induction l generalizing acc with
  | nil =>
    cases ps <;> simp only [seedInherited, Option.some.injEq] at h <;> rw [← h] at hm <;>
      exact Or.inr hm
  | cons hd rest ih =>
    obtain ⟨p, d⟩ := hd
    cases ps with
    | none =>
      simp only [seedInherited] at h
      rcases ih h with hk | hacc
      · exact Or.inl (by simp [hk])
      · rw [dictGet_dictSet] at hacc
        split at hacc
        · rename_i he
          exact Or.inl (by simp [he])
        · exact Or.inr hacc
    | some psm =>
      simp only [seedInherited] at h
      split at h
      · exact absurd h (by simp)
      · rcases ih h with hk | hacc
        · exact Or.inl (by simp [hk])
        · rw [dictGet_dictSet] at hacc
          split at hacc
          · rename_i he
            exact Or.inl (by simp [he])
          · exact Or.inr hacc

theorem seed_untouched {l : List (Str × Str)} {ps : Option StyleMap}
    {acc m : StyleMap} (h : seedInherited l ps acc = some m) (key : Str)
    (hk : key ∉ l.map Prod.fst) : dictGet? m key = dictGet? acc key := by
  induction l generalizing acc with
  | nil =>
    cases ps <;> simp only [seedInherited, Option.some.injEq] at h <;> rw [← h]
  | cons hd rest ih =>
    obtain ⟨p, d⟩ := hd
    have hkp : key ≠ p := by
      intro he
      exact hk (by simp [he])
    have hkr : key ∉ rest.map Prod.fst := by
      intro he
      exact hk (by simp [he])
    cases ps with
    | none =>
      simp only [seedInherited] at h
      rw [ih h hkr, dictGet_dictSet, if_neg hkp]
    | some psm =>
      simp only [seedInherited] at h
      split at h
      · exact absurd h (by simp)
      · rw [ih h hkr, dictGet_dictSet, if_neg hkp]

theorem seed_value {l : List (Str × Str)} {ps : Option StyleMap}
    {acc m : StyleMap} (h : seedInherited l ps acc = some m)
    (hnd : (l.map Prod.fst).Nodup) :
    ∀ pd ∈ l, dictGet? m pd.1 = inheritedValue ps pd := by
  induction l generalizing acc with
  | nil => intro pd hpd; simp at hpd
  | cons hd rest ih =>
    obtain ⟨p, d⟩ := hd
    have hnd2 : (rest.map Prod.fst).Nodup := (List.nodup_cons.mp hnd).2
    have hpnr : p ∉ rest.map Prod.fst := (List.nodup_cons.mp hnd).1
    intro pd hpd
    rcases List.mem_cons.mp hpd with hpd | hpd
    · subst hpd
      cases ps with
      | none =>
        simp only [seedInherited] at h
        rw [show ((p, d).1 : Str) = p from rfl, seed_untouched h p hpnr, dictGet_dictSet,
          if_pos rfl]
        rfl
      | some psm =>
        simp only [seedInherited] at h
        split at h
        · exact absurd h (by simp)
        · rename_i v hv
          rw [show ((p, d).1 : Str) = p from rfl, seed_untouched h p hpnr, dictGet_dictSet,
            if_pos rfl]
          simp [inheritedValue, hv]
    · cases ps with
      | none =>
        simp only [seedInherited] at h
        exact ih h hnd2 pd hpd
      | some psm =>
        simp only [seedInherited] at h
        split at h
        · exact absurd h (by simp)
        · exact ih h hnd2 pd hpd

theorem overlay_untouched (decls : List (Str × Str)) (m : StyleMap) (key : Str)
    (hk : key ∉ decls.map Prod.fst) :
    dictGet? (overlayDecls m decls) key = dictGet? m key := by
  induction decls generalizing m with
  | nil => rfl
  | cons hd rest ih =>
    obtain ⟨k, v⟩ := hd
    have hkk : key ≠ k := by
      intro he
      exact hk (by simp [he])
    have hkr : key ∉ rest.map Prod.fst := by
      intro he
      exact hk (by simp [he])
    show dictGet? (overlayDecls (dictSet m k v) rest) key = dictGet? m key
    rw [ih (dictSet m k v) hkr, dictGet_dictSet, if_neg hkk]

theorem overlay_keys (decls : List (Str × Str)) (m : StyleMap) (key : Str)
    (hm : dictGet? (overlayDecls m decls) key ≠ none) :
    key ∈ decls.map Prod.fst ∨ dictGet? m key ≠ none := by
  induction decls generalizing m with
  | nil => exact Or.inr hm
  | cons hd rest ih =>
    obtain ⟨k, v⟩ := hd
    rcases ih (dictSet m k v) hm with hk | hacc
    · exact Or.inl (by simp [hk])
    · rw [dictGet_dictSet] at hacc
      split at hacc
      · rename_i he
        exact Or.inl (by simp [he])
      · exact Or.inr hacc

theorem overlay_preserves (decls : List (Str × Str)) (m : StyleMap) (key : Str)
    (hm : dictGet? m key ≠ none) :
    dictGet? (overlayDecls m decls) key ≠ none := by
  induction decls generalizing m with
  | nil => exact hm
  | cons hd rest ih =>
    obtain ⟨k, v⟩ := hd
    refine ih (dictSet m k v) ?_
    rw [dictGet_dictSet]
    split
    · simp
    · exact hm

theorem ruleSets_cons (sel : CSSSelector) (body : List (Str × Str))
    (rest : List Rule) (k : NKind) (anc : List NKind) (key : Str) :
    ruleSets ((sel, body) :: rest) k anc key ↔
      (selMatches sel k anc = true ∧ key ∈ body.map Prod.fst) ∨ ruleSets rest k anc key := by
  unfold ruleSets
  constructor
  · rintro ⟨r, hr, hm, hk⟩
    rcases List.mem_cons.mp hr with hr | hr
    · subst hr
      exact Or.inl ⟨hm, hk⟩
    · exact Or.inr ⟨r, hr, hm, hk⟩
  · rintro (⟨hm, hk⟩ | ⟨r, hr, hm, hk⟩)
    · exact ⟨(sel, body), List.mem_cons_self _ _, hm, hk⟩
    · exact ⟨r, List.mem_cons_of_mem _ hr, hm, hk⟩

theorem apply_untouched (rules : List Rule) (k : NKind) (anc : List NKind)
    (m : StyleMap) (key : Str) (h : ¬ruleSets rules k anc key) :
    dictGet? (applyRules k anc rules m) key = dictGet? m key := by
  induction rules generalizing m with
  | nil => rfl
  | cons r rest ih =>
    obtain ⟨sel, body⟩ := r
    rw [ruleSets_cons] at h
    push_neg at h
    show dictGet? (applyRules k anc rest (if selMatches sel k anc = true then overlayDecls m body else m)) key = _
    rw [ih _ h.2]
    split
    · rename_i hm
      exact overlay_untouched body m key (h.1 hm)
    · rfl

theorem apply_keys (rules : List Rule) (k : NKind) (anc : List NKind)
    (m : StyleMap) (key : Str)
    (h : dictGet? (applyRules k anc rules m) key ≠ none) :
    ruleSets rules k anc key ∨ dictGet? m key ≠ none := by
  induction rules generalizing m with
  | nil => exact Or.inr h
  | cons r rest ih =>
    obtain ⟨sel, body⟩ := r
    rcases ih _ h with hr | hget
    · exact Or.inl ((ruleSets_cons sel body rest k anc key).mpr (Or.inr hr))
    · split at hget
      · rename_i hm
        rcases overlay_keys body m key hget with hk | hget2
        · exact Or.inl ((ruleSets_cons sel body rest k anc key).mpr (Or.inl ⟨hm, hk⟩))
        · exact Or.inr hget2
      · exact Or.inr hget

theorem apply_preserves (rules : List Rule) (k : NKind) (anc : List NKind)
    (m : StyleMap) (key : Str) (h : dictGet? m key ≠ none) :
    dictGet? (applyRules k anc rules m) key ≠ none := by
  induction rules generalizing m with
  | nil => exact h
  | cons r rest ih =>
    obtain ⟨sel, body⟩ := r
    show dictGet? (applyRules k anc rest _) key ≠ none
    refine ih _ ?_
    split
    · exact overlay_preserves body m key h
    · exact h

theorem inline_untouched (k : NKind) (m : StyleMap) (key : Str)
    (hk : key ∉ inlineKeys k) : dictGet? (inlineOverlay k m) key = dictGet? m key := by
  cases k with
  | text s => rfl
  | elem t attrs =>
    simp only [inlineOverlay]
    simp only [inlineKeys] at hk
    cases ha : attrsGet? attrs (s2l (r"style")) with
    | none => rfl
    | some v? =>
      rw [ha] at hk
      exact overlay_untouched _ m key hk

theorem inline_keys (k : NKind) (m : StyleMap) (key : Str)
    (h : dictGet? (inlineOverlay k m) key ≠ none) :
    key ∈ inlineKeys k ∨ dictGet? m key ≠ none := by
  cases k with
  | text s => exact Or.inr h
  | elem t attrs =>
    simp only [inlineOverlay] at h
    simp only [inlineKeys]
    cases ha : attrsGet? attrs (s2l (r"style")) with
    | none =>
      rw [ha] at h
      exact Or.inr h
    | some v? =>
      rw [ha] at h
      exact overlay_keys _ m key h

theorem inline_preserves (k : NKind) (m : StyleMap) (key : Str)
    (h : dictGet? m key ≠ none) : dictGet? (inlineOverlay k m) key ≠ none := by
  cases k with
  | text s => exact h
  | elem t attrs =>
    simp only [inlineOverlay]
    cases ha : attrsGet? attrs (s2l (r"style")) with
    | none => exact h
    | some v? => exact overlay_preserves _ m key h

theorem getLast_append_two (a : Str) (x y : Char) :
    (a ++ [x, y]).getLast? = some y := by
  rw [show a ++ [x, y] = (a ++ [x]) ++ [y] by simp, List.getLast?_concat]

theorem resolve_other {ps : Option StyleMap} {m m4 : StyleMap}
    (h : resolveFontSize ps m = some m4) (key : Str)
    (hk : key ≠ s2l (r"font-size")) : dictGet? m4 key = dictGet? m key := by
  unfold resolveFontSize at h
  split at h
  · exact absurd h (by simp)
  · rename_i fs hfs
    split at h
    · split at h
      · exact absurd h (by simp)
      · split at h
        · simp only [Option.some.injEq] at h
          rw [← h, dictGet_dictSet_ne _ _ _ _ hk]
        · exact absurd h (by simp)
    · simp only [Option.some.injEq] at h
      rw [← h]

theorem resolve_presence_to {ps : Option StyleMap} {m m4 : StyleMap}
    (h : resolveFontSize ps m = some m4) (key : Str)
    (hm : dictGet? m key ≠ none) : dictGet? m4 key ≠ none := by
  by_cases hk : key = s2l (r"font-size")
  · subst hk
    unfold resolveFontSize at h
    split at h
    · exact absurd h (by simp)
    · rename_i fs hfs
      split at h
      · split at h
        · exact absurd h (by simp)
        · split at h
          · simp only [Option.some.injEq] at h
            rw [← h, dictGet_dictSet_self]
            simp
          · exact absurd h (by simp)
      · simp only [Option.some.injEq] at h
        rw [← h]
        exact hm
  · rw [resolve_other h key hk]
    exact hm

theorem resolve_presence_from {ps : Option StyleMap} {m m4 : StyleMap}
    (h : resolveFontSize ps m = some m4) (key : Str)
    (hm : dictGet? m4 key ≠ none) : dictGet? m key ≠ none := by
  by_cases hk : key = s2l (r"font-size")
  · subst hk
    unfold resolveFontSize at h
    split at h
    · exact absurd h (by simp)
    · rename_i fs hfs
      rw [hfs]
      simp
  · rw [resolve_other h key hk] at hm
    exact hm

theorem resolve_fs_nopct {ps : Option StyleMap} {m m4 : StyleMap}
    (h : resolveFontSize ps m = some m4) (v : Str)
    (hv : dictGet? m4 (s2l (r"font-size")) = some v) : v.getLast? ≠ some '%' := by
  unfold resolveFontSize at h
  split at h
  · exact absurd h (by simp)
  · rename_i fs hfs
    split at h
    · split at h
      · exact absurd h (by simp)
      · split at h
        · simp only [Option.some.injEq] at h
          rw [← h, dictGet_dictSet_self] at hv
          simp only [Option.some.injEq] at hv
          rw [← hv]
          rw [show s2l (r"px") = ['p', 'x'] from rfl, getLast_append_two]
          simp
        · exact absurd h (by simp)
    · rename_i hnp
      simp only [Option.some.injEq] at h
      rw [← h] at hv
      rw [hfs] at hv
      simp only [Option.some.injEq] at hv
      rw [← hv]
      exact hnp

theorem resolve_nopct_id {ps : Option StyleMap} {m : StyleMap} {fsv : Str}
    (hfs : dictGet? m (s2l (r"font-size")) = some fsv)
    (hnp : fsv.getLast? ≠ some '%') : resolveFontSize ps m = some m := by
  simp only [resolveFontSize, hfs]
  rw [if_neg hnp]

theorem optMapList_length {α β : Type} {f : α → Option β} :
    ∀ {l : List α} {bs : List β}, optMapList f l = some bs → l.length = bs.length := by
  intro l
  induction l with
  | nil =>
    intro bs h
    simp only [optMapList, Option.some.injEq] at h
    subst h
    rfl
  | cons a as ih =>
    intro bs h
    simp only [optMapList] at h
    split at h
    · exact absurd h (by simp)
    · split at h
      · exact absurd h (by simp)
      · rename_i b hb bs' hbs
        simp only [Option.some.injEq] at h
        rw [← h]
        simp [ih hbs]

theorem optMapList_mem {α β : Type} {f : α → Option β} :
    ∀ {l : List α} {bs : List β}, optMapList f l = some bs →
      ∀ pr ∈ l.zip bs, f pr.1 = some pr.2 := by
  intro l
  induction l with
  | nil =>
    intro bs h pr hpr
    simp only [optMapList, Option.some.injEq] at h
    rw [← h] at hpr
    simp at hpr
  | cons a as ih =>
    intro bs h pr hpr
    simp only [optMapList] at h
    split at h
    · exact absurd h (by simp)
    · rename_i b hb
      split at h
      · exact absurd h (by simp)
      · rename_i bs' hbs
        simp only [Option.some.injEq] at h
        rw [← h] at hpr
        rcases List.mem_cons.mp hpr with hpr | hpr
        · subst hpr
          exact hb
        · exact ih hbs pr hpr

theorem cascade_untouched {rules : List Rule} {k : NKind} {anc : List NKind}
    {ps : Option StyleMap} {m1 m4 : StyleMap}
    (hps : ∀ psm, ps = some psm → ∀ v, dictGet? psm (s2l (r"font-size")) = some v →
      v.getLast? ≠ some '%')
    (hseed : seedInherited INHERITED_PROPERTIES ps [] = some m1)
    (hres : resolveFontSize ps (inlineOverlay k (applyRules k anc rules m1)) = some m4) :
    ∀ pd ∈ INHERITED_PROPERTIES, ¬ruleSets rules k anc pd.1 → pd.1 ∉ inlineKeys k →
      dictGet? m4 pd.1 = inheritedValue ps pd := by
  intro pd hpd hnr hni
  have hv1 : dictGet? m1 pd.1 = inheritedValue ps pd :=
    seed_value hseed (by decide) pd hpd
  have hv2 : dictGet? (applyRules k anc rules m1) pd.1 = inheritedValue ps pd := by
    rw [apply_untouched rules k anc m1 pd.1 hnr]
    exact hv1
  have hv3 : dictGet? (inlineOverlay k (applyRules k anc rules m1)) pd.1 =
      inheritedValue ps pd := by
    rw [inline_untouched k _ pd.1 hni]
    exact hv2
  simp only [INHERITED_PROPERTIES, List.mem_cons, List.not_mem_nil, or_false] at hpd
  rcases hpd with rfl | rfl | rfl | rfl | rfl
  · rw [resolve_other hres _ (by decide)]
    exact hv3
  · cases hps0 : ps with
    | none =>
      rw [hps0] at hv3 hres
      have hfs : dictGet? (inlineOverlay k (applyRules k anc rules m1))
          (s2l (r"font-size")) = some (s2l (r"16px")) := hv3
      have hnp : (s2l (r"16px")).getLast? ≠ some '%' := by decide
      rw [resolve_nopct_id hfs hnp] at hres
      injection hres with he
      rw [← he]
      exact hv3
    | some psm =>
      rw [hps0] at hv3 hres
      have hiv : inheritedValue (some psm) (s2l (r"font-size"), s2l (r"16px")) =
          dictGet? psm (s2l (r"font-size")) := rfl
      cases hq : dictGet? psm (s2l (r"font-size")) with
      | none =>
        have hm3 : dictGet? (inlineOverlay k (applyRules k anc rules m1))
            (s2l (r"font-size")) = none := by
          rw [show ((s2l (r"font-size"), s2l (r"16px")).1 : Str) = s2l (r"font-size")
            from rfl] at hv3
          rw [hv3, hiv, hq]
        exact absurd hres (by simp [resolveFontSize, hm3])
      | some v =>
        have hnp := hps psm hps0 v hq
        have hfs : dictGet? (inlineOverlay k (applyRules k anc rules m1))
            (s2l (r"font-size")) = some v := by
          rw [show ((s2l (r"font-size"), s2l (r"16px")).1 : Str) = s2l (r"font-size")
            from rfl] at hv3
          rw [hv3, hiv, hq]
        rw [resolve_nopct_id hfs hnp] at hres
        injection hres with he
        rw [← he]
        exact hv3
  · rw [resolve_other hres _ (by decide)]
    exact hv3
  · rw [resolve_other hres _ (by decide)]
    exact hv3
  · rw [resolve_other hres _ (by decide)]
    exact hv3

theorem styleGo_inv (rules : List Rule) :
    ∀ (fuel : Nat) (n : Node) (ps : Option StyleMap) (anc : List NKind) (res : SNode),
      (∀ psm, ps = some psm → ∀ v, dictGet? psm (s2l (r"font-size")) = some v →
        v.getLast? ≠ some '%') →
      styleGo rules fuel ps anc n = some res → CascadeInv rules ps anc n res := by
  intro fuel
  induction fuel with
  | zero =>
    intro n ps anc res hps h
    exact absurd h (by simp [styleGo])
  | succ fuel ih =>
    intro n ps anc res hps h
    obtain ⟨k, cs⟩ := n
    simp only [styleGo] at h
    split at h
    · exact absurd h (by simp)
    · rename_i m1 hseed
      split at h
      · exact absurd h (by simp)
      · rename_i m4 hres
        split at h
        · exact absurd h (by simp)
        · rename_i scs hscs
          simp only [Option.some.injEq] at h
          subst h
          refine CascadeInv.mk ps anc k cs m4 scs ?_ ?_ ?_ ?_ ?_ ?_
          · intro pd hpd
            exact resolve_presence_to hres _
              (inline_preserves _ _ _ (apply_preserves _ _ _ _ _ (seed_present hseed pd hpd)))
          · intro key hk
            have h1 := resolve_presence_from hres key hk
            rcases inline_keys k _ key h1 with hik | h2
            · exact Or.inr (Or.inr hik)
            · rcases apply_keys rules k anc _ key h2 with hrs | h3
              · exact Or.inr (Or.inl hrs)
              · rcases seed_keys hseed key h3 with hip | h4
                · exact Or.inl hip
                · exact absurd rfl h4
          · exact cascade_untouched hps hseed hres
          · intro v hv
            exact resolve_fs_nopct hres v hv
          · exact optMapList_length hscs
          · intro pr hpr
            refine ih pr.1 (some m4) (k :: anc) pr.2 ?_ (optMapList_mem hscs pr hpr)
            intro psm hpsm v hv
            injection hpsm with he
            subst he
            exact resolve_fs_nopct hres v hv

/-- C8: after the cascade runs (the style function succeeds on the whole
tree), every node of the styled tree satisfies the cascade invariant: its
Style Map contains all five inherited properties; an inherited property no
matching rule and no inline style set holds the parent's resolved value
(the fixed default at the root); and every other present key was set by a
matching rule or by the node's inline style; recursively, each child's
parent map is this node's resolved map. -/
theorem c8_cascade_invariant (rules : List Rule) (fuel : Nat) (n : Node)
    (res : SNode) (h : style rules fuel n = some res) :
    CascadeInv rules none [] n res :=
  styleGo_inv rules fuel n none [] res (fun psm hpsm => absurd hpsm (by simp)) h

theorem c8_cascade_invariant_witness :
    CascadeInv [] none [] (nElem (r"p") [])
      (SNode.mk (NKind.elem (s2l (r"p")) []) INHERITED_PROPERTIES []) :=
  c8_cascade_invariant [] 2 (nElem (r"p") [])
    (SNode.mk (NKind.elem (s2l (r"p")) []) INHERITED_PROPERTIES []) rfl

/-- C5 (counterexample): for a p node with font-size 50 percent under a div
whose resolved font-size is 20px, the resolved value stored in the Style Map
is the string 10.0px (Python float formatting of 20.0 * 0.5), not the
literal string 10px the claim names. -/
theorem c5_counterexample :
    (style [(.simple (.tag (s2l (r"div"))), [(s2l (r"font-size"), s2l (r"20px"))]),
            (.simple (.tag (s2l (r"p"))), [(s2l (r"font-size"), s2l (r"50%"))])] 4
        (nElem (r"div") [nElem (r"p") []])).map
      (fun sn => sn.children.map (fun c => dictGet? c.style (s2l (r"font-size")))) =
      some [some (s2l (r"10.0px"))] ∧
    s2l (r"10.0px") ≠ s2l (r"10px") :=
  ⟨rfl, by decide⟩

/-- C5 (amended): percentage font-size resolves to the parent's absolute
font-size times the percentage: under a parent resolved to 20px, font-size
50 percent resolves to 10 pixels, stored as the float-formatted string
10.0px whose numeric value (as read back by the slicing float parse every
consumer applies) is exactly 10. -/
theorem c5_percentage_resolution :
    (style [(.simple (.tag (s2l (r"div"))), [(s2l (r"font-size"), s2l (r"20px"))]),
            (.simple (.tag (s2l (r"p"))), [(s2l (r"font-size"), s2l (r"50%"))])] 4
        (nElem (r"div") [nElem (r"p") []])).map
      (fun sn => sn.children.map (fun c => dictGet? c.style (s2l (r"font-size")))) =
      some [some (s2l (r"10.0px"))] ∧
    pyFloat (dropRight 2 (s2l (r"10.0px"))) = some 10 ∧
    qMul 20 (qDiv 50 100) = 10 :=
  ⟨rfl, by decide, by decide⟩

/-- C7: for style rules of equal selector priority the cascade applies them
in original order with later rules winning: a p tag selector has priority 1,
the stable sort keeps the red-then-blue order, and the p node's resolved
color is blue. -/
theorem c7_equal_priority_order :
    (CSSSelector.simple (.tag (s2l (r"p")))).priority = 1 ∧
    pySorted cascadePriority
        [(.simple (.tag (s2l (r"p"))), [(s2l (r"color"), s2l (r"red"))]),
         (.simple (.tag (s2l (r"p"))), [(s2l (r"color"), s2l (r"blue"))])] =
      [(.simple (.tag (s2l (r"p"))), [(s2l (r"color"), s2l (r"red"))]),
       (.simple (.tag (s2l (r"p"))), [(s2l (r"color"), s2l (r"blue"))])] ∧
    (style (pySorted cascadePriority
        [(.simple (.tag (s2l (r"p"))), [(s2l (r"color"), s2l (r"red"))]),
         (.simple (.tag (s2l (r"p"))), [(s2l (r"color"), s2l (r"blue"))])]) 2
      (nElem (r"p") [])).map (fun sn => dictGet? sn.style (s2l (r"color"))) =
      some (some (s2l (r"blue"))) :=
  ⟨rfl, rfl, rfl⟩

/-- WINDOW_H_MARGIN (browser.py). -/
def WINDOW_H_MARGIN : ℚ := 13

/-- WINDOW_V_MARGIN (browser.py). -/
def WINDOW_V_MARGIN : ℚ := 18

/-- SCROLLBAR_WIDTH (browser.py). -/
def SCROLLBAR_WIDTH : ℚ := 15

/-- Modelled from the spec: HIDDEN_ELEMENTS, imported by browser.py from
baby_browser.html but not defined in the provided html.py.  The spec calls
it the fixed hidden set of head-only tags whose subtrees produce no boxes
and no draw commands, and the layout code logs Skipped head where it tests
the set, so it is modelled as the head element together with the head-only
tags. -/
def HIDDEN_ELEMENTS : List Str := s2l (r"head") :: HEAD_TAGS

/-- A font cache key (fonts.py get_font): family, size, weight, slant. -/
abbrev FontKey := Str × Int × Str × Str

/-- The Font Metrics Provider consumed by layout: per-font word measure,
ascent and descent (tkinter Font.measure and Font.metrics). -/
structure FontMetrics where
  measure : FontKey → Str → ℚ
  ascent : FontKey → ℚ
  descent : FontKey → ℚ

/-- A draw command (layout/commands.py): DrawRect carries its corners and a
color.  The color field of the text variant is modelled from the spec (the
Display List variant Text(top,left,text,font-key,color)): it is what
browser.py passes to DrawText, though the DrawText dataclass in commands.py
declares no such field. -/
inductive DrawCmd where
  | text (top left : ℚ) (txt : Str) (font : FontKey) (color : Str)
  | rect (top left bottom right : ℚ) (color : Str)
deriving DecidableEq

/-- The shape of the DrawText construction in _flush_line: top, left, text,
font and color to an optional draw command (none models a raised
exception). -/
abbrev EmitText := ℚ → ℚ → Str → FontKey → Str → Option DrawCmd

/-- The DrawText construction as the code runs it: _flush_line passes a
color keyword argument, but the DrawText dataclass (layout/commands.py)
declares no color field, so the constructor raises TypeError for every
word and never returns a command. -/
def drawTextCall : EmitText := fun _ _ _ _ _ => none

/-- Modelled from the spec: the intended Text draw command
Text(top,left,text,font-key,color), which the DrawText(... color=...) call
in _flush_line constructs once DrawText declares the color field. -/
def drawTextSpec : EmitText := fun top left s f c => some (.text top left s f c)

/-- Python int() truncation toward zero of a rational. -/
def pyInt (q : ℚ) : Int := Int.tdiv q.num q.den

/-- BlockLayout.get_font (browser.py): build the font key from the node's
resolved style; font-style normal maps to the roman slant, and the pixel
size is scaled by 0.75 and truncated to an int.  A missing style key
raises (none). -/
def getFontKey (m : StyleMap) : Option FontKey :=
  match dictGet? m (s2l (r"font-family")), dictGet? m (s2l (r"font-weight")),
      dictGet? m (s2l (r"font-style")), dictGet? m (s2l (r"font-size")) with
  | some family, some weight, some fstyle, some fs =>
    match pyFloat (dropRight 2 fs) with
    | some v =>
      some (family, pyInt (qMul v (Rat.divInt 3 4)), weight,
        if fstyle = s2l (r"normal") then s2l (r"roman") else fstyle)
    | none => none
  | _, _, _, _ => none

/-- Python max of a nonempty list of rationals (seed, remaining items);
ties keep the earlier element. -/
def qMax (a b : ℚ) : ℚ := if qLt a b then b else a

/-- Fold of qMax over the tail of a nonempty list. -/
def listMax (x : ℚ) (xs : List ℚ) : ℚ := xs.foldl qMax x

/-- The inline-mode cursor state of BlockLayout: the pending line entries
(relative x, word, font, color), the cursors, and the display-list fragment
built so far. -/
structure IState where
  line : List (ℚ × Str × FontKey × Str)
  cursorX : ℚ
  cursorY : ℚ
  dl : List DrawCmd

/-- Option-valued left fold (sequencing loops whose body may raise). -/
def optFoldl {α β : Type} (f : β → α → Option β) : List α → β → Option β
  | [], b => some b
  | a :: as, b =>
    match f b a with
    | none => none
    | some b2 => optFoldl f as b2

/-- The emission loop of _flush_line (browser.py): one Text command per
line entry, at (box.x + word.x, box.y + baseline - ascent). -/
def emitWords (fm : FontMetrics) (emit : EmitText) (boxX boxY baseline : ℚ) :
    List (ℚ × Str × FontKey × Str) → Option (List DrawCmd)
  | [] => some []
  | e :: rest =>
    match emit (qSub (qAdd boxY baseline) (fm.ascent e.2.2.1)) (qAdd boxX e.1)
        e.2.1 e.2.2.1 e.2.2.2 with
    | none => none
    | some c =>
      match emitWords fm emit boxX boxY baseline rest with
      | none => none
      | some cs => some (c :: cs)

/-- BlockLayout._flush_line (browser.py): an empty line is a no-op;
otherwise the baseline comes from the maximum ascent, each word becomes one
Text command, and the cursor drops below the maximum descent. -/
def flushLineWith (fm : FontMetrics) (emit : EmitText) (boxX boxY : ℚ)
    (st : IState) : Option IState :=
  match st.line with
  | [] => some st
  | e :: rest =>
    let maxAscent := listMax (fm.ascent e.2.2.1) (rest.map (fun p => fm.ascent p.2.2.1))
    let baseline := qAdd st.cursorY (qMul (Rat.divInt 5 4) maxAscent)
    let maxDescent := listMax (fm.descent e.2.2.1) (rest.map (fun p => fm.descent p.2.2.1))
    match emitWords fm emit boxX boxY baseline (e :: rest) with
    | none => none
    | some cmds =>
      some ⟨[], 0, qAdd baseline (qMul (Rat.divInt 5 4) maxDescent), st.dl ++ cmds⟩

/-- BlockLayout._render_word (browser.py): measure the word, flush first
when appending it would exceed the box width, append the word to the line
at the cursor, advance the cursor by the word width plus one space. -/
def renderWordWith (fm : FontMetrics) (emit : EmitText) (boxX boxY width : ℚ)
    (nStyle : StyleMap) (st : IState) (word : Str) : Option IState :=
  match getFontKey nStyle with
  | none => none
  | some font =>
    let w := fm.measure font word
    match (if qLt width (qAdd st.cursorX w) then
        flushLineWith fm emit boxX boxY st else some st) with
    | none => none
    | some st1 =>
      match dictGet? nStyle (s2l (r"color")) with
      | none => none
      | some color =>
        some ⟨st1.line ++ [(st1.cursorX, word, font, color)],
          qAdd st1.cursorX (qAdd w (fm.measure font (s2l (r" ")))),
          st1.cursorY, st1.dl⟩

/-- BlockLayout._render_tree (browser.py): a text node places its
whitespace-split words; a hidden element contributes nothing; br flushes
the line; any other element recurses into its children.  Fuel bounds the
tree depth. -/
def renderTreeWith (fm : FontMetrics) (emit : EmitText) (boxX boxY width : ℚ) :
    Nat → SNode → IState → Option IState
  | 0, _, _ => none
  | fuel + 1, sn, st =>
    match sn with
    | .mk (.text s) m _ =>
      optFoldl (renderWordWith fm emit boxX boxY width m) (pySplit s) st
    | .mk (.elem t _) _ cs =>
      if t ∈ HIDDEN_ELEMENTS then some st
      else
        match (if t = s2l (r"br") then flushLineWith fm emit boxX boxY st
            else some st) with
        | none => none
        | some st1 =>
          optFoldl (fun acc c => renderTreeWith fm emit boxX boxY width fuel c acc)
            cs st1

/-- Element.is_block_element / Node.is_block_element (html.py). -/
def isBlockKind : NKind → Bool
  | .text _ => false
  | .elem t _ => decide (t ∈ BLOCK_ELEMENTS)

/-- The two layout modes get_layout_mode returns. -/
inductive LMode where
  | block
  | inline
deriving DecidableEq

/-- get_layout_mode (html.py): a text node is inline; an element is block
when any of its children is a block element (itself, when childless). -/
def getLayoutMode (sn : SNode) : LMode :=
  match sn.kind with
  | .text _ => .inline
  | .elem _ _ =>
    match sn.children with
    | [] => if isBlockKind sn.kind then .block else .inline
    | cs => if cs.any (fun c => isBlockKind c.kind) then .block else .inline

/-- The skip test of _layout_intermediate (browser.py), exactly as the code
performs it: isinstance(self.html_node, Element) and self.html_node.tag in
HIDDEN_ELEMENTS.  Note that self.html_node is the node being laid out (the
parent of the children the loop creates boxes for), not the child. -/
def hiddenParent : NKind → Bool
  | .elem t _ => decide (t ∈ HIDDEN_ELEMENTS)
  | .text _ => false

/-- A laid-out box (BlockLayout): its node, geometry, inline display-list
fragment, and child boxes. -/
inductive Box where
  | mk (node : SNode) (x y width height : ℚ) (dl : List DrawCmd)
      (children : List Box)

/-- The styled node a box lays out. -/
def Box.node : Box → SNode
  | .mk n _ _ _ _ _ _ => n

/-- The x position of a box. -/
def Box.x : Box → ℚ
  | .mk _ x _ _ _ _ _ => x

/-- The y position of a box. -/
def Box.y : Box → ℚ
  | .mk _ _ y _ _ _ _ => y

/-- The width of a box. -/
def Box.width : Box → ℚ
  | .mk _ _ _ w _ _ _ => w

/-- The height of a box. -/
def Box.height : Box → ℚ
  | .mk _ _ _ _ h _ _ => h

/-- The display-list fragment of an inline box. -/
def Box.dl : Box → List DrawCmd
  | .mk _ _ _ _ _ dl _ => dl

/-- The child boxes of a box. -/
def Box.children : Box → List Box
  | .mk _ _ _ _ _ _ cs => cs

/-- BlockLayout.layout (browser.py): position at the parent x and the given
start y; width and height come from the style (auto width fills the parent,
auto height is zero).  Block mode lays the children out in sequence, each
starting at the previous bottom — skipping them all when the skip test on
the laid-out node's own tag fires — and sets the height to the sum of the
children's heights; inline mode runs the cursor over the subtree, flushes
the last line, and keeps the final cursor as the height when no explicit
height was set.  Fuel bounds the tree depth. -/
def layoutGo (fm : FontMetrics) (emit : EmitText) :
    Nat → SNode → ℚ → ℚ → ℚ → Option Box
  | 0, _, _, _, _ => none
  | fuel + 1, sn, x, y, parentWidth =>
    match (match dictGet? sn.style (s2l (r"width")) with
           | some w => if w = s2l (r"auto") then some parentWidth else pyFloat w
           | none => some parentWidth) with
    | none => none
    | some width =>
      match (match dictGet? sn.style (s2l (r"height")) with
             | some h => if h = s2l (r"auto") then some (0 : ℚ) else pyFloat h
             | none => some (0 : ℚ)) with
      | none => none
      | some height0 =>
        match getLayoutMode sn with
        | .block =>
          match optFoldl (fun (acc : List Box × ℚ) c =>
              if hiddenParent sn.kind then some acc
              else
                match layoutGo fm emit fuel c x acc.2 width with
                | none => none
                | some b => some (acc.1 ++ [b], qAdd acc.2 (Box.height b)))
            sn.children ([], y) with
          | none => none
          | some res =>
            some (.mk sn x y width
              (res.1.foldl (fun s b => qAdd s (Box.height b)) 0) [] res.1)
        | .inline =>
          match renderTreeWith fm emit x y width fuel sn ⟨[], 0, 0, []⟩ with
          | none => none
          | some st1 =>
            match flushLineWith fm emit x y st1 with
            | none => none
            | some st2 =>
              some (.mk sn x y width
                (if height0 = 0 then st2.cursorY else height0) st2.dl [])

/-- BlockLayout.paint (browser.py): a non-transparent background paints a
rectangle over the box bounds, an inline box appends its display-list
fragment, and the children paint after. -/
def paintGo : Nat → Box → List DrawCmd → Option (List DrawCmd)
  | 0, _, _ => none
  | fuel + 1, b, dl =>
    let bg := match dictGet? (Box.node b).style (s2l (r"background-color")) with
      | some c => c
      | none => s2l (r"transparent")
    let dl1 := if bg = s2l (r"transparent") then dl
      else dl ++ [.rect (Box.y b) (Box.x b) (qAdd (Box.y b) (Box.height b))
        (qAdd (Box.x b) (Box.width b)) bg]
    let dl2 := match getLayoutMode (Box.node b) with
      | .block => dl1
      | .inline => dl1 ++ Box.dl b
    optFoldl (fun acc c => paintGo fuel c acc) (Box.children b) dl2

/-- DocumentLayout.layout (browser.py): the content width subtracts the two
window margins and the scrollbar width; the single child box starts at the
margin origin. -/
def documentLayout (fm : FontMetrics) (emit : EmitText) (fuel : Nat)
    (sn : SNode) (width : ℚ) : Option Box :=
  layoutGo fm emit fuel sn WINDOW_H_MARGIN WINDOW_V_MARGIN
    (qSub (qSub width (qMul 2 WINDOW_H_MARGIN)) SCROLLBAR_WIDTH)

/-- Browser.load_page after the fetch (browser.py): parse the markup, sort
the sheet ascending by cascade priority, style the tree, lay the document
out at the viewport width, and paint the display list. -/
def loadPage (fm : FontMetrics) (emit : EmitText) (fuel : Nat) (markup : Str)
    (sheet : List Rule) (width : ℚ) : Option (List DrawCmd) :=
  match parseRoot markup with
  | some (some root) =>
    match style (pySorted cascadePriority sheet) fuel root with
    | none => none
    | some styled =>
      match documentLayout fm emit fuel styled width with
      | none => none
      | some box => paintGo fuel box []
  | _ => none

/-- Modelled from the spec: the default stylesheet (default.css) shipped
with the browser is not under src.  The spec fixes no contents for it, and
the claim scenario needs only the inherited defaults, so it is modelled as
contributing no rules. -/
def DEFAULT_STYLE_SHEET : List Rule := []

/-- Concrete font metrics for evaluating the layout claims: every character
is 30 units wide, ascent 10 and descent 2 for every font. -/
def fmDemo : FontMetrics :=
  ⟨fun _ w => Rat.divInt (Int.ofNat (30 * w.length)) 1, fun _ => 10, fun _ => 2⟩

/-- C1 (code bug): for the markup p Hello world cascaded with the default
stylesheet at viewport width 800, the pipeline as coded produces no display
list at all: _flush_line passes a color argument that the DrawText
dataclass does not declare, raising TypeError on the first flushed line.
With the Text command of the spec (color field included) the display list
holds exactly one Hello command and one world command, and world sits at
the strictly greater left x. -/
theorem c1_missing_color_field :
    loadPage fmDemo drawTextCall 20 (s2l (r"<p>Hello world</p>"))
      DEFAULT_STYLE_SHEET 800 = none ∧
    loadPage fmDemo drawTextSpec 20 (s2l (r"<p>Hello world</p>"))
      DEFAULT_STYLE_SHEET 800 =
      some [.text (Rat.divInt 41 2) 13 (s2l (r"Hello"))
              (s2l (r"Times"), 12, s2l (r"normal"), s2l (r"roman")) (s2l (r"black")),
            .text (Rat.divInt 41 2) 193 (s2l (r"world"))
              (s2l (r"Times"), 12, s2l (r"normal"), s2l (r"roman")) (s2l (r"black"))] ∧
    qLt 13 193 = true :=
  ⟨rfl, rfl, rfl⟩

/-- C6 (code bug): for a p box of explicit width 100 holding the two words
aa and bb, each measuring 60, the render loop correctly decides to break
the line before the second word, but flushing the first line raises the
DrawText TypeError (no color field), so the code places nothing; with the
Text command of the spec the two words land on two separate lines: equal
left x at the box origin and strictly increasing tops. -/
theorem c6_line_break_crash :
    loadPage fmDemo drawTextCall 20 (s2l (r"<p>aa bb</p>"))
      [(.simple (.tag (s2l (r"p"))), [(s2l (r"width"), s2l (r"100"))])] 800 = none ∧
    loadPage fmDemo drawTextSpec 20 (s2l (r"<p>aa bb</p>"))
      [(.simple (.tag (s2l (r"p"))), [(s2l (r"width"), s2l (r"100"))])] 800 =
      some [.text (Rat.divInt 41 2) 13 (s2l (r"aa"))
              (s2l (r"Times"), 12, s2l (r"normal"), s2l (r"roman")) (s2l (r"black")),
            .text (Rat.divInt 71 2) 13 (s2l (r"bb"))
              (s2l (r"Times"), 12, s2l (r"normal"), s2l (r"roman")) (s2l (r"black"))] ∧
    qLt (Rat.divInt 41 2) (Rat.divInt 71 2) = true :=
  ⟨rfl, rfl, rfl⟩

/-- C3 (code bug): the hidden-set test of _layout_intermediate reads the
laid-out node's own tag instead of the child's: a title child of a block
body still receives a box (first conjunct, title being a hidden tag by the
second conjunct), while a head parent drops the boxes of all its children
(third conjunct). -/
theorem c3_hidden_check_on_parent :
    ((style [] 3 (Node.mk (.elem (s2l (r"body")) [])
        [Node.mk (.elem (s2l (r"title")) []) [],
         Node.mk (.elem (s2l (r"p")) []) []])).bind
      (fun sb => layoutGo fmDemo drawTextSpec 5 sb 13 18 759)).map
        (fun b => (Box.children b).map (fun c => (Box.node c).kind)) =
      some [NKind.elem (s2l (r"title")) [], NKind.elem (s2l (r"p")) []] ∧
    s2l (r"title") ∈ HIDDEN_ELEMENTS ∧
    ((style [] 3 (Node.mk (.elem (s2l (r"head")) [])
        [Node.mk (.elem (s2l (r"p")) []) []])).bind
      (fun sb => layoutGo fmDemo drawTextSpec 5 sb 13 18 759)).map
        (fun b => (Box.children b).length) = some 0 :=
  ⟨rfl, by decide, rfl⟩

end BabyBrowser
